import Mathlib

/-!
Verification of the WeasyPrint PDF post-processor (`weasyprint/pdf.py`).

This file gives a shallow embedding of the module's data model and
operations:

* `convert_field_P` — the `PDFFormatter.convert_field` `!P` conversion
  (UTF-16BE with BOM, backslash-escaping of `(`, `)`, `\`);
* `PDFFile` — the object store: `read_object`, `overwrite_object`,
  `extend_dict`, `write_new_object`, `finish`, and construction from a
  file (`PDFFile.init`);
* `process_bookmarks` — the bookmark hierarchy builder.

Bytes are modelled as natural numbers (`List Nat`); Python `int` values
that can go negative are modelled as `Int`; fallible Python code
(assertion failures, `IndexError`, `StopIteration`, seek errors, implicit
`None` returns that make the result unusable) is modelled with `Option`.
Python `dict` is modelled with insertion-ordered association lists
(update-in-place keeps the original position), matching the documented
dict semantics of modern Python.
-/

set_option maxRecDepth 100000
set_option maxHeartbeats 1000000

namespace WeasyPdf

/-- ASCII bytes of a Lean string (all literals used are ASCII). -/
def strB (s : String) : List Nat := s.data.map Char.toNat

/-- Decimal digits (ASCII) of a natural number, as Python `str(n)` /
`'{0}'.format(n)` produce them. -/
def natDigits (n : Nat) : List Nat := (Nat.toDigits 10 n).map Char.toNat

/-- Python `'{0:010}'.format(n)` for a non-negative integer: zero-pad the
decimal digits to width 10 (wider numbers are printed in full). -/
def pad10 (n : Nat) : List Nat :=
  List.replicate (10 - (natDigits n).length) 48 ++ natDigits n

/-- ASCII decimal digit test. -/
def isDigit (c : Nat) : Bool := 48 ≤ c && c ≤ 57

/-- Python whitespace bytes (`' \t\n\r\v\f'`). -/
def isWs (c : Nat) : Bool :=
  c = 32 || c = 9 || c = 10 || c = 13 || c = 11 || c = 12

/-- Value of a nonempty all-digit byte string (leading zeros allowed). -/
def digitsVal : List Nat → Option Nat
  | [] => none
  | ds =>
    if ds.all isDigit then
      some (ds.foldl (fun a c => a * 10 + (c - 48)) 0)
    else none

/-- Strip leading and trailing Python whitespace. -/
def trimWs (bs : List Nat) : List Nat :=
  ((bs.dropWhile isWs).reverse.dropWhile isWs).reverse

/-- Python `int(bytes)`: optional surrounding whitespace, optional sign,
then a nonempty run of decimal digits; anything else raises `ValueError`
(modelled as `none`). -/
def pyInt (bs : List Nat) : Option Int :=
  match trimWs bs with
  | [] => none
  | 43 :: ds => (digitsVal ds).map Int.ofNat
  | 45 :: ds => (digitsVal ds).map (fun v => -(v : Int))
  | ds => (digitsVal ds).map Int.ofNat

/-! ### Token formatter (`PDFFormatter.convert_field`, conversion `!P`)

Python:
```
return '({0})'.format(
    ('﻿' + value).encode('utf-16-be').decode('latin1')
    .translate({40: r'\(', 41: r'\)', 92: r'\\'}))
```
The `latin1` decode is the identity on byte values, so the pipeline is:
UTF-16BE-encode the BOM-prefixed code points, then `str.translate` maps
byte 40 to `\(`, 41 to `\)`, 92 to `\\`, and wraps in parentheses.
-/

/-- UTF-16BE encoding of one Unicode scalar value (big-endian code units;
non-BMP scalars become a surrogate pair), as `str.encode('utf-16-be')`
produces per character. -/
def utf16beChar (c : Nat) : List Nat :=
  if c < 0x10000 then [c / 256, c % 256]
  else
    let v := c - 0x10000
    let hi := 0xD800 + v / 0x400
    let lo := 0xDC00 + v % 0x400
    [hi / 256, hi % 256, lo / 256, lo % 256]

/-- UTF-16BE encoding of a sequence of code points. -/
def utf16beEncode (cs : List Nat) : List Nat := cs.flatMap utf16beChar

/-- The `str.translate({40: r'\(', 41: r'\)', 92: r'\\'})` table applied
character by character. -/
def pyTranslateEsc (cs : List Nat) : List Nat :=
  cs.flatMap fun c =>
    if c = 40 then [92, 40]
    else if c = 41 then [92, 41]
    else if c = 92 then [92, 92]
    else [c]

/-- `PDFFormatter.convert_field` with conversion `'P'` on a Unicode
string: code points of the string, BOM-prefixed, UTF-16BE encoded,
translate-escaped, wrapped in `(` `)`. -/
def convert_field_P (s : String) : List Nat :=
  [40] ++ pyTranslateEsc (utf16beEncode (0xFEFF :: s.data.map Char.toNat)) ++ [41]

/-- Specification-side escape: a byte 0x28 `(`, 0x29 `)` or 0x5C `\` is
replaced by a backslash followed by that byte; every other byte is kept. -/
def escapeByteSpec (b : Nat) : List Nat :=
  if b = 40 ∨ b = 41 ∨ b = 92 then [92, b] else [b]

theorem pyTranslateEsc_eq_escape (cs : List Nat) :
    pyTranslateEsc cs = cs.flatMap escapeByteSpec := by
  unfold pyTranslateEsc
  refine List.flatMap_congr (fun c _ => ?_)
  unfold escapeByteSpec
  by_cases h40 : c = 40
  · simp [h40]
  · by_cases h41 : c = 41
    · simp [h41]
    · by_cases h92 : c = 92
      · simp [h92]
      · simp [h40, h41, h92]

/-! ### Line iteration

Python file objects iterate over lines: each line runs up to and
including the next `\n` byte; a final fragment with no `\n` is yielded
without one.  `splitAux acc bs` splits `bs` into such lines, `acc` being
the bytes of the current line read so far, in reverse.
-/

def splitAux : List Nat → List Nat → List (List Nat)
  | acc, [] => if acc.isEmpty then [] else [acc.reverse]
  | acc, b :: rest =>
    if b = 10 then (acc.reverse ++ [10]) :: splitAux [] rest
    else splitAux (b :: acc) rest

/-- The sequence of lines a Python file iterator yields from byte
position 0 of `bs`. -/
def linesFrom (bs : List Nat) : List (List Nat) := splitAux [] bs

/-- A complete line: nonempty, ends with `\n`, no interior `\n`. -/
def IsLine (l : List Nat) : Prop :=
  l ≠ [] ∧ l.getLast? = some 10 ∧ 10 ∉ l.dropLast

instance (l : List Nat) : Decidable (IsLine l) := by
  unfold IsLine; infer_instance

theorem splitAux_join (bs : List Nat) :
    ∀ acc, (splitAux acc bs).flatten = acc.reverse ++ bs := by
  induction bs with
  | nil =>
    intro acc
    by_cases h : acc.isEmpty
    · simp [splitAux, h, List.isEmpty_iff.mp h]
    · simp [splitAux, h]
  | cons b rest ih =>
    intro acc
    by_cases h : b = 10
    · simp [splitAux, h, ih]
    · simp [splitAux, h, ih]

theorem linesFrom_join (bs : List Nat) : (linesFrom bs).flatten = bs := by
  simpa using splitAux_join bs []

/-- No element of `splitAux acc bs` has an interior newline, provided the
partial line `acc` has none. -/
theorem splitAux_no_inner (bs : List Nat) :
    ∀ acc, 10 ∉ acc → ∀ l ∈ splitAux acc bs, 10 ∉ l.dropLast := by
  induction bs with
  | nil =>
    intro acc hacc l hl
    by_cases h : acc.isEmpty
    · simp [splitAux, h] at hl
    · simp [splitAux, h] at hl
      subst hl
      intro hmem
      exact hacc (by simpa using List.dropLast_subset _ hmem)
  | cons b rest ih =>
    intro acc hacc l hl
    by_cases h : b = 10
    · simp [splitAux, h] at hl
      rcases hl with hl | hl
      · subst hl
        intro hmem
        rw [List.dropLast_concat] at hmem
        exact hacc (by simpa using hmem)
      · exact ih [] (by simp) l hl
    · simp [splitAux, h] at hl
      refine ih (b :: acc) ?_ l hl
      intro hmem
      rcases List.mem_cons.mp hmem with h10 | h10
      · exact h h10.symm
      · exact hacc h10

/-- Every element of `splitAux acc bs` other than the final one ends with
a newline. -/
theorem splitAux_ends (bs : List Nat) :
    ∀ acc, ∀ l ∈ (splitAux acc bs).dropLast, l.getLast? = some 10 := by
  induction bs with
  | nil =>
    intro acc l hl
    by_cases h : acc.isEmpty <;> simp [splitAux, h] at hl
  | cons b rest ih =>
    intro acc l hl
    by_cases h : b = 10
    · simp only [splitAux, if_pos h] at hl
      cases hrec : splitAux [] rest with
      | nil => rw [hrec] at hl; simp at hl
      | cons x xs =>
        rw [hrec, List.dropLast_cons₂] at hl
        rcases List.mem_cons.mp hl with hl | hl
        · subst hl; simp
        · rw [← hrec] at hl
          exact ih [] l hl
    · simp only [splitAux, if_neg h] at hl
      exact ih (b :: acc) l hl

/-- Every element of `splitAux acc bs` is nonempty, provided nonempty
partial line accounting: the empty line can never be produced. -/
theorem splitAux_ne_nil (bs : List Nat) :
    ∀ acc, ∀ l ∈ splitAux acc bs, l ≠ [] := by
  induction bs with
  | nil =>
    intro acc l hl
    by_cases h : acc.isEmpty
    · simp [splitAux, h] at hl
    · simp [splitAux, h] at hl
      subst hl
      simpa [List.isEmpty_iff] using h
  | cons b rest ih =>
    intro acc l hl
    by_cases h : b = 10
    · simp [splitAux, h] at hl
      rcases hl with hl | hl
      · subst hl; simp
      · exact ih [] l hl
    · simp [splitAux, h] at hl
      exact ih (b :: acc) l hl

/-- Splitting a byte string that begins with a complete line yields that
line first. -/
theorem splitAux_line_append (m : List Nat) (B : List Nat) (h : 10 ∉ m) :
    ∀ acc, splitAux acc (m ++ 10 :: B) = (acc.reverse ++ m ++ [10]) :: splitAux [] B := by
  induction m with
  | nil => intro acc; simp [splitAux]
  | cons b m' ih =>
    intro acc
    have hb : b ≠ 10 := fun hb => h (by simp [hb])
    have hm' : 10 ∉ m' := fun hm => h (by simp [hm])
    simp only [List.cons_append, splitAux, if_neg hb]
    rw [show m'.append (10 :: B) = m' ++ 10 :: B from rfl, ih hm' (b :: acc)]
    simp

theorem linesFrom_line_append (l B : List Nat) (h : IsLine l) :
    linesFrom (l ++ B) = l :: linesFrom B := by
  obtain ⟨hne, hlast, hinner⟩ := h
  have hdecomp : l = l.dropLast ++ [10] := by
    conv_lhs => rw [← List.dropLast_concat_getLast hne]
    rw [List.getLast?_eq_getLast l hne] at hlast
    simp at hlast
    rw [hlast]
  rw [hdecomp]
  have := splitAux_line_append l.dropLast B hinner []
  simpa [linesFrom] using this

/-- Splitting a concatenation of complete lines followed by anything. -/
theorem linesFrom_flatten_append (ls : List (List Nat)) (B : List Nat)
    (h : ∀ l ∈ ls, IsLine l) :
    linesFrom (ls.flatten ++ B) = ls ++ linesFrom B := by
  induction ls with
  | nil => simp
  | cons l ls ih =>
    have hl : IsLine l := h l (by simp)
    rw [List.flatten_cons, List.append_assoc, linesFrom_line_append l _ hl,
      ih (fun x hx => h x (List.mem_cons_of_mem _ hx))]
    simp

/-! ### Python helpers: list indexing and ordered dict -/

/-- Python list indexing `l[i]`: non-negative indices from the front,
negative indices wrap from the back, out of range raises `IndexError`
(modelled as `none`). -/
def pyIdx {α : Type} (l : List α) (i : Int) : Option α :=
  if 0 ≤ i then l.get? i.toNat
  else if -i ≤ (l.length : Int) then l.get? (l.length - (-i).toNat) else none

/-- Python `d[k] = v` on an insertion-ordered dict: updating an existing
key keeps its position, a new key is appended. -/
def dictInsert (d : List (Nat × Nat)) (k v : Nat) : List (Nat × Nat) :=
  if d.any (fun p => p.1 = k) then
    d.map (fun p => if p.1 = k then (k, v) else p)
  else d ++ [(k, v)]

/-! ### The object store (`PDFFile`) — write side

`PDFFile.__init__` parses the trailer, cross-reference table, info,
catalog, page tree and pages; the parse is modelled further below
(`PDFFile.init`).  The store state it produces:
-/

/-- `PDFDictionary`: an object number and the object's raw byte range.
`read_object` can return `None` without raising, so a constructed
dictionary can carry `None` as its byte string (it only fails when
queried). -/
structure PDFDictionary where
  object_number : Nat
  byte_string : Option (List Nat)
deriving Repr, DecidableEq

structure PDFFile where
  file : List Nat
  objects_offsets : List (Option Int)
  startxref : Nat
  info : PDFDictionary
  catalog : PDFDictionary
  page_tree : PDFDictionary
  pages : List PDFDictionary
  finished : Bool
  overwritten_objects_offsets : List (Nat × Nat)
  new_objects_offsets : List Nat
deriving Repr, DecidableEq

/-- `PDFFile._start_writing`: assert not finished, seek to end of file,
return the current length (the offset where the next write lands). -/
def PDFFile.start_writing (st : PDFFile) : Option Nat :=
  if st.finished then none else some st.file.length

/-- Append raw bytes at end of file (one `write` call). -/
def writeChunk (st : PDFFile) (chunk : List Nat) : PDFFile :=
  { st with file := st.file ++ chunk }

/-- The bytes `_write_object` appends for object `n` with content
`body`: `'{0} 0 obj\n'`, the body, `'\nendobj\n'`. -/
def writtenObjectBytes (n : Nat) (body : List Nat) : List Nat :=
  natDigits n ++ strB " 0 obj\n" ++ body ++ strB "\nendobj\n"

/-- `PDFFile._write_object`: start writing, emit header/body/`endobj`,
return the offset written at. -/
def PDFFile.write_object (st : PDFFile) (n : Nat) (body : List Nat) :
    Option (Nat × PDFFile) :=
  match st.start_writing with
  | none => none
  | some offset => some (offset, writeChunk st (writtenObjectBytes n body))

/-- `PDFFile.overwrite_object`: write a new physical copy of object `n`
at end of file and record its offset under `n`. -/
def PDFFile.overwrite_object (st : PDFFile) (n : Nat) (body : List Nat) :
    Option PDFFile :=
  (st.write_object n body).map fun p =>
    { p.2 with overwritten_objects_offsets :=
        dictInsert p.2.overwritten_objects_offsets n p.1 }

/-- `PDFFile.extend_dict` for a dictionary object with number `n` and
byte string `dbytes`: assert the bytes end with `'>>\n'`, then overwrite
object `n` with the content spliced in before the closing token. -/
def PDFFile.extend_dict (st : PDFFile) (n : Nat) (dbytes extra : List Nat) :
    Option PDFFile :=
  if (strB ">>\n").isSuffixOf dbytes then
    st.overwrite_object n
      (dbytes.take (dbytes.length - 3) ++ extra ++ strB "\n>>\n")
  else none

/-- `PDFFile.next_object_number`. -/
def PDFFile.next_object_number (st : PDFFile) : Nat :=
  st.objects_offsets.length + st.new_objects_offsets.length

/-- `PDFFile.write_new_object`: allocate the next object number, write
the object, record the offset, return the number. -/
def PDFFile.write_new_object (st : PDFFile) (body : List Nat) :
    Option (Nat × PDFFile) :=
  (st.write_object st.next_object_number body).map fun p =>
    (st.next_object_number,
      { p.2 with new_objects_offsets := p.2.new_objects_offsets ++ [p.1] })

/-- One 1-entry cross-reference subsection for an overwritten object:
`'{0} 1\n{1:010} 00000 n \n'`. -/
def xrefSub1 (n off : Nat) : List Nat :=
  natDigits n ++ strB " 1\n" ++ pad10 off ++ strB " 00000 n \n"

/-- One cross-reference entry line: `'{0:010} 00000 n \n'`. -/
def xrefLine (off : Nat) : List Nat := pad10 off ++ strB " 00000 n \n"

/-- The trailer and startxref bytes `finish` writes last. -/
def trailerBytes (size root info prev newstartxref : Nat) : List Nat :=
  strB "trailer\n<< /Size " ++ natDigits size ++ strB " /Root " ++
    natDigits root ++ strB " 0 R /Info " ++ natDigits info ++
    strB " 0 R /Prev " ++ natDigits prev ++ strB " >>\nstartxref\n" ++
    natDigits newstartxref ++ strB "\n%%EOF\n"

/-- `PDFFile.finish`: start writing (single-use: fails when already
finished), mark finished, then write the `xref` keyword, one subsection
per overwritten object in dict order, a single subsection for the new
objects when there are any, and the trailer/startxref block. -/
def PDFFile.finish (st : PDFFile) : Option PDFFile :=
  match st.start_writing with
  | none => none
  | some new_startxref =>
    let st1 := { st with finished := true }
    let st2 := writeChunk st1 (strB "xref\n")
    let st3 := st.overwritten_objects_offsets.foldl
      (fun s p => writeChunk s (xrefSub1 p.1 p.2)) st2
    let st4 :=
      if st.new_objects_offsets.isEmpty then st3
      else
        let first_new_object := st.objects_offsets.length
        let hdr := writeChunk st3
          (natDigits first_new_object ++ strB " " ++
            natDigits st.new_objects_offsets.length ++ strB "\n")
        st.new_objects_offsets.foldl (fun s off => writeChunk s (xrefLine off)) hdr
    some (writeChunk st4
      (trailerBytes st.next_object_number st.catalog.object_number
        st.info.object_number st.startxref new_startxref))

/-! ### The object store — read side (`read_object`) -/

def dictCloseLine : List Nat := strB ">>\n"

def endobjLine : List Nat := strB "endobj\n"

/-- The header check of `read_object`: the line ends with `' 0 obj\n'`
and the byte string before that parses (Python `int`) to the requested
object number. -/
def headerOk (line : List Nat) (n : Int) : Bool :=
  (strB " 0 obj\n").isSuffixOf line &&
    pyInt (line.take (line.length - 7)) == some n

/-- The accumulation loop of `read_object`: collect lines; on a line
exactly `'>>\n'` the next line must be `'endobj\n'` and the collected
bytes are returned; hitting end of input first means the Python loop
falls through (returning `None`) or `next()` raises. -/
def scanLines : List (List Nat) → List Nat → Option (List Nat)
  | [], _ => none
  | l :: rest, acc =>
    if l = dictCloseLine then
      match rest with
      | [] => none
      | l2 :: _ => if l2 = endobjLine then some (acc ++ l) else none
    else scanLines rest (acc ++ l)

/-- `PDFFile.read_object` over raw store data: look up the offset
(`IndexError`/`None`-offset/negative-seek fail), read the header line,
check it, then scan for the `'>>\n'`/`'endobj\n'` pair. -/
def read_object_raw (file : List Nat) (offsets : List (Option Int)) (n : Int) :
    Option (List Nat) :=
  match pyIdx offsets n with
  | none => none
  | some none => none
  | some (some off) =>
    if off < 0 then none
    else
      match linesFrom (file.drop off.toNat) with
      | [] => none
      | header :: rest =>
        if headerOk header n then scanLines rest [] else none

def PDFFile.read_object (st : PDFFile) (n : Nat) : Option (List Nat) :=
  read_object_raw st.file st.objects_offsets (n : Int)

/-! ### Characterization of the read loop -/

theorem scanLines_eq_some_iff (ls : List (List Nat)) :
    ∀ acc r, scanLines ls acc = some r ↔
      ∃ pre rest, ls = pre ++ dictCloseLine :: endobjLine :: rest ∧
        dictCloseLine ∉ pre ∧ r = acc ++ pre.flatten ++ dictCloseLine := by
  induction ls with
  | nil =>
    intro acc r
    simp only [scanLines]
    constructor
    · intro h; exact absurd h (by simp)
    · rintro ⟨pre, rest, h, -, -⟩
      exact absurd h (by simp)
  | cons l ls' ih =>
    intro acc r
    by_cases hl : l = dictCloseLine
    · subst hl
      constructor
      · intro h
        cases ls' with
        | nil => simp [scanLines] at h
        | cons l2 rest' =>
          by_cases h2 : l2 = endobjLine
          · have hr : acc ++ dictCloseLine = r := by simpa [scanLines, h2] using h
            exact ⟨[], rest', by simp [h2], by simp, by simp [hr]⟩
          · simp [scanLines, h2] at h
      · rintro ⟨pre, rest, hdec, hpre, hr⟩
        have hpre0 : pre = [] := by
          cases pre with
          | nil => rfl
          | cons x xs =>
            exfalso
            have : x = dictCloseLine := by
              have := congrArg (fun t => t.head?) hdec
              simpa using this.symm
            exact hpre (by simp [this])
        subst hpre0
        simp only [List.nil_append] at hdec
        have hls : ls' = endobjLine :: rest := by
          injection hdec
        rw [hls]
        simp [scanLines, hr]
    · simp only [scanLines, if_neg hl]
      rw [ih (acc ++ l) r]
      constructor
      · rintro ⟨pre, rest, hdec, hpre, hr⟩
        exact ⟨l :: pre, rest, by simp [hdec], by
          intro hmem
          rcases List.mem_cons.mp hmem with h | h
          · exact hl h.symm
          · exact hpre h, by simp [hr]⟩
      · rintro ⟨pre, rest, hdec, hpre, hr⟩
        cases pre with
        | nil =>
          exfalso
          have : l = dictCloseLine := by
            have := congrArg (fun t => t.head?) hdec
            simpa using this
          exact hl this
        | cons x xs =>
          have hx : l = x ∧ ls' = xs ++ dictCloseLine :: endobjLine :: rest := by
            constructor
            · have := congrArg (fun t => t.head?) hdec
              simpa using this
            · have := congrArg (fun t => t.tail) hdec
              simpa using this
          refine ⟨xs, rest, hx.2, fun h => hpre (List.mem_cons_of_mem _ h), ?_⟩
          rw [hr, hx.1]
          simp

theorem scanLines_none_of_no_close (ls : List (List Nat))
    (h : dictCloseLine ∉ ls) : ∀ acc, scanLines ls acc = none := by
  induction ls with
  | nil => intro acc; simp [scanLines]
  | cons l ls' ih =>
    intro acc
    have hl : l ≠ dictCloseLine := fun he => h (by simp [he])
    simp only [scanLines, if_neg hl]
    exact ih (fun hm => h (List.mem_cons_of_mem _ hm)) (acc ++ l)

/-- `read_object_raw` succeeds exactly when the offset lookup succeeds
with a usable offset and the bytes there have the expected line shape. -/
theorem read_object_raw_eq_some_iff (file : List Nat)
    (offsets : List (Option Int)) (n : Int) (r : List Nat) :
    read_object_raw file offsets n = some r ↔
      ∃ off header rest, pyIdx offsets n = some (some off) ∧ 0 ≤ off ∧
        linesFrom (file.drop off.toNat) = header :: rest ∧
        headerOk header n = true ∧ scanLines rest [] = some r := by
  unfold read_object_raw
  cases hidx : pyIdx offsets n with
  | none => simp
  | some o =>
    cases o with
    | none => simp
    | some off =>
      by_cases hneg : off < 0
      · simp only [if_pos hneg]
        constructor
        · intro h; exact absurd h (by simp)
        · rintro ⟨off', header, rest, hoff', hpos, -, -, -⟩
          have : off' = off := by simpa using hoff'.symm
          subst this; omega
      · simp only [if_neg hneg]
        cases hlines : linesFrom (file.drop off.toNat) with
        | nil =>
          constructor
          · intro h; exact absurd h (by simp)
          · rintro ⟨off', header, rest, hoff', -, hl, -, -⟩
            have : off' = off := by simpa using hoff'.symm
            subst this
            rw [hlines] at hl; exact absurd hl (by simp)
        | cons header rest =>
          by_cases hh : headerOk header n
          · simp only [if_pos hh]
            constructor
            · intro h
              exact ⟨off, header, rest, rfl, by omega, hlines, hh, h⟩
            · rintro ⟨off', header', rest', hoff', -, hl, -, hs⟩
              have : off' = off := by simpa using hoff'.symm
              subst this
              rw [hlines] at hl
              injection hl with h1 h2
              subst h1; subst h2
              exact hs
          · simp only [if_neg hh]
            constructor
            · intro h; exact absurd h (by simp)
            · rintro ⟨off', header', rest', hoff', -, hl, hh', -⟩
              have : off' = off := by simpa using hoff'.symm
              subst this
              rw [hlines] at hl
              injection hl with h1 h2
              subst h1
              exact absurd hh' hh

/-- A successful read is preserved when bytes are appended at end of
file: the scan stops strictly inside the original bytes. -/
theorem read_object_raw_append (file W : List Nat) (offsets : List (Option Int))
    (n : Int) (r : List Nat) (h : read_object_raw file offsets n = some r) :
    read_object_raw (file ++ W) offsets n = some r := by
  rw [read_object_raw_eq_some_iff] at h ⊢
  obtain ⟨off, header, rest, hidx, hneg, hlines, hhdr, hscan⟩ := h
  obtain ⟨pre, tail, hdec, hpre, hr⟩ := (scanLines_eq_some_iff rest [] r).mp hscan
  -- the consumed region lies inside `file`
  have hlt : off.toNat ≤ file.length := by
    by_contra hgt
    push_neg at hgt
    rw [List.drop_eq_nil_of_le (le_of_lt hgt)] at hlines
    simp [linesFrom, splitAux] at hlines
  have hdrop : (file ++ W).drop off.toNat = file.drop off.toNat ++ W := by
    rw [List.drop_append_of_le_length hlt]
  -- line structure of the extended byte string
  have hflat : file.drop off.toNat =
      (header :: (pre ++ [dictCloseLine, endobjLine])).flatten ++ tail.flatten := by
    have := linesFrom_join (file.drop off.toNat)
    rw [hlines, hdec] at this
    rw [← this]
    simp
  have hmemlines : ∀ l ∈ linesFrom (file.drop off.toNat), 10 ∉ l.dropLast :=
    splitAux_no_inner _ [] (by simp)
  have hislines : ∀ l ∈ header :: (pre ++ [dictCloseLine, endobjLine]), IsLine l := by
    intro l hmem
    rcases List.mem_cons.mp hmem with hm | hm
    · -- the header line: it ends with ' 0 obj\n'
      subst hm
      have hsuf : (strB " 0 obj\n") <:+ l := by
        have := (Bool.and_eq_true _ _).mp hhdr
        exact List.isSuffixOf_iff_suffix.mp this.1
      refine ⟨?_, ?_, ?_⟩
      · rintro rfl
        rcases hsuf with ⟨t, ht⟩
        simp [strB] at ht
      · rcases hsuf with ⟨t, ht⟩
        rw [← ht]
        rw [List.getLast?_append]
        rfl
      · exact hmemlines l (by rw [hlines]; exact List.mem_cons_self _ _)
    rcases List.mem_append.mp hm with hm | hm
    · -- a body line before the '>>' line
      have hmem' : l ∈ (linesFrom (file.drop off.toNat)).dropLast := by
        rw [hlines, hdec]
        have : (header :: (pre ++ dictCloseLine :: endobjLine :: tail)) =
            (header :: pre) ++ (dictCloseLine :: endobjLine :: tail) := by simp
        rw [this, List.dropLast_append_of_ne_nil _ (by simp)]
        exact List.mem_append_left _ (List.mem_cons_of_mem _ hm)
      have hlast := splitAux_ends _ [] l hmem'
      refine ⟨by rintro rfl; simp at hlast, hlast, ?_⟩
      · refine hmemlines l ?_
        rw [hlines, hdec]
        exact List.mem_cons_of_mem _ (List.mem_append_left _ hm)
    · have hm2 : l = dictCloseLine ∨ l = endobjLine := by simpa using hm
      rcases hm2 with hm2 | hm2 <;> subst hm2 <;> decide
  have hlines' : linesFrom ((file ++ W).drop off.toNat) =
      header :: (pre ++ dictCloseLine :: endobjLine :: linesFrom (tail.flatten ++ W)) := by
    rw [hdrop, hflat, List.append_assoc, linesFrom_flatten_append _ _ hislines]
    simp
  refine ⟨off, header, _, hidx, hneg, hlines', hhdr, ?_⟩
  rw [scanLines_eq_some_iff]
  exact ⟨pre, linesFrom (tail.flatten ++ W), rfl, hpre, by simp [hr]⟩

/-! ### `PDFFile.__init__`: parsing an existing PDF

`read_object` can end in three ways: raise an exception (bad lookup, bad
header, bad `endobj`), fall off its loop returning `None`, or return the
body.  `read_object_raw` above collapses the first two (no usable
value); construction needs the distinction because a `None` body is
stored silently and only fails when queried. -/

def scanLinesFull : List (List Nat) → List Nat → Option (Option (List Nat))
  | [], _ => some none
  | l :: rest, acc =>
    if l = dictCloseLine then
      match rest with
      | [] => none
      | l2 :: _ => if l2 = endobjLine then some (some (acc ++ l)) else none
    else scanLinesFull rest (acc ++ l)

def read_object_full (file : List Nat) (offsets : List (Option Int)) (n : Int) :
    Option (Option (List Nat)) :=
  match pyIdx offsets n with
  | none => none
  | some none => none
  | some (some off) =>
    if off < 0 then none
    else
      match linesFrom (file.drop off.toNat) with
      | [] => none
      | header :: rest =>
        if headerOk header n then scanLinesFull rest [] else none

/-- `pat` occurs in `s` starting at position `i`. -/
def occursAt (pat s : List Nat) (i : Nat) : Bool :=
  pat.isPrefixOf (s.drop i)

def natOfDigits (ds : List Nat) : Nat :=
  ds.foldl (fun a c => a * 10 + (c - 48)) 0

def nlTrailerNl : List Nat := strB "\ntrailer\n"

def nlStartxrefNl : List Nat := strB "\nstartxref\n"

def eofBlock : List Nat := strB "\n%%EOF\n"

/-- A position `j` in the searched window where the suffix
`'\nstartxref\n' (\d+) '\n%%EOF\n'` matches, with the regex `$` anchor
(end of buffer, or just before one final newline).  The `\d+` is a
maximal digit run: it is followed by a literal non-digit, so regex
backtracking can only accept the maximal run. -/
def validStartxrefAt (s : List Nat) (j : Nat) : Bool :=
  occursAt nlStartxrefNl s j &&
    (let d := (s.drop (j + 11)).takeWhile isDigit
     let e := j + 11 + d.length
     decide (d ≠ []) && occursAt eofBlock s e &&
       (decide (e + 7 = s.length) ||
         (decide (e + 8 = s.length) && s.get? (e + 7) == some 10)))

/-- `re.search` of `'\ntrailer\n(.+)\nstartxref\n(\d+)\n%%EOF\n$'`
(DOTALL) over a byte window: leftmost start of `'\ntrailer\n'` for which
a match exists; greedy `(.+)` makes group 1 run to the last compatible
`'\nstartxref\n'`; group 1 must be nonempty (`j ≥ i + 10`). -/
def trailer_search (s : List Nat) : Option (List Nat × List Nat) :=
  match (List.range s.length).find? (fun i =>
      occursAt nlTrailerNl s i &&
        (List.range s.length).any (fun j =>
          decide (i + 10 ≤ j) && validStartxrefAt s j)) with
  | none => none
  | some i =>
    match ((List.range s.length).filter (fun j =>
        decide (i + 10 ≤ j) && validStartxrefAt s j)).getLast? with
    | none => none
    | some j =>
      some ((s.drop (i + 9)).take (j - (i + 9)),
        (s.drop (j + 11)).takeWhile isDigit)

/-- Python `bytes.split()` (split on whitespace runs, no empty parts). -/
def splitWsAux : List Nat → List Nat → List (List Nat)
  | acc, [] => if acc.isEmpty then [] else [acc.reverse]
  | acc, b :: rest =>
    if isWs b then
      if acc.isEmpty then splitWsAux [] rest
      else acc.reverse :: splitWsAux [] rest
    else splitWsAux (b :: acc) rest

def pySplitWs (bs : List Nat) : List (List Nat) := splitWsAux [] bs

/-- The cross-reference entry loop of `__init__`: read one line per
object number `1 .. total-1`, each of the exact form
`'%010d 00000 n \n'` (asserted), collecting the offsets. -/
def parseXrefLines : Nat → List (List Nat) → List (Option Int) →
    Option (List (Option Int))
  | 0, _, acc => some acc
  | _ + 1, [], _ => none
  | k + 1, l :: rest, acc =>
    if l.drop 10 = strB " 00000 n \n" then
      match pyInt (l.take 10) with
      | none => none
      | some off => parseXrefLines k rest (acc ++ [some off])
    else none

/-- `get_value(key, '(\d+) 0 R')` followed by `int`: leftmost occurrence
of `'/<key> '` followed by a nonempty digit run followed by `' 0 R'`.
`None` bytes raise when searched. -/
def findIndirectNum (key : String) (bytes : Option (List Nat)) : Option Nat :=
  match bytes with
  | none => none
  | some bs =>
    let pat := strB ("/" ++ key ++ " ")
    ((List.range bs.length).find? (fun i =>
      occursAt pat bs i &&
        (let d := (bs.drop (i + pat.length)).takeWhile isDigit
         decide (d ≠ []) && occursAt (strB " 0 R") bs (i + pat.length + d.length)))).map
      (fun i => natOfDigits ((bs.drop (i + pat.length)).takeWhile isDigit))

def isWordChar (c : Nat) : Bool :=
  (48 ≤ c && c ≤ 57) || (65 ≤ c && c ≤ 90) || (97 ≤ c && c ≤ 122) || c = 95

/-- `get_type`: value of `'/Type /(\w+)'` (greedy, maximal word run). -/
def findTypeName (bytes : Option (List Nat)) : Option (List Nat) :=
  match bytes with
  | none => none
  | some bs =>
    ((List.range bs.length).find? (fun i =>
      occursAt (strB "/Type /") bs i &&
        decide ((bs.drop (i + 7)).takeWhile isWordChar ≠ []))).map
      (fun i => (bs.drop (i + 7)).takeWhile isWordChar)

/-- `get_value(key, '\[(.+?)\]')` for `/Kids`: leftmost `'/Kids ['`,
lazy group: content up to the first `']'` with at least one byte. -/
def findKidsContent (bytes : Option (List Nat)) : Option (List Nat) :=
  match bytes with
  | none => none
  | some bs =>
    match (List.range bs.length).find? (fun i =>
        occursAt (strB "/Kids [") bs i &&
          (List.range bs.length).any (fun j =>
            decide (i + 8 ≤ j) && bs.get? j == some 93)) with
    | none => none
    | some i =>
      match ((List.range bs.length).filter (fun j =>
          decide (i + 8 ≤ j) && bs.get? j == some 93)).head? with
      | none => none
      | some j => some ((bs.drop (i + 7)).take (j - (i + 7)))

/-- `bytes.split(b' 0 R')` (leftmost, non-overlapping). -/
def splitOn0R : List Nat → List Nat → List (List Nat)
  | acc, 32 :: 48 :: 32 :: 82 :: rest => acc.reverse :: splitOn0R [] rest
  | acc, b :: rest => splitOn0R (b :: acc) rest
  | acc, [] => [acc.reverse]

/-- One entry of `get_indirect_dict_array`: `int` the part, read the
object (exceptions propagate, a `None` body is stored).  The stored
object number is clamped to `Nat`; a negative number can only arise in
degenerate inputs and is never consulted again by any modelled
operation. -/
def readKid (file : List Nat) (offsets : List (Option Int)) (part : List Nat) :
    Option PDFDictionary :=
  match pyInt part with
  | none => none
  | some n =>
    match read_object_full file offsets n with
    | none => none
    | some ob => some ⟨n.toNat, ob⟩

/-- `PDFFile.__init__`.  Seek 200 bytes from the end (fails on shorter
files), regex-search the trailer there, parse the cross-reference table
at `startxref`, then resolve Info, Root, Pages and the page list,
asserting every kid has type `Page`. -/
def PDFFile.init (file : List Nat) : Option PDFFile :=
  if file.length < 200 then none
  else
    match trailer_search (file.drop (file.length - 200)) with
    | none => none
    | some (trailerB, dgs) =>
      let startxref := natOfDigits dgs
      match linesFrom (file.drop startxref) with
      | l0 :: l1 :: l2 :: rest =>
        if l0 = strB "xref\n" then
          match pySplitWs l1 with
          | [a, b] =>
            if a = strB "0" then
              match pyInt b with
              | none => none
              | some total =>
                if l2 = strB "0000000000 65535 f \n" then
                  match parseXrefLines (total - 1).toNat rest [none] with
                  | none => none
                  | some offsets =>
                    match findIndirectNum "Info" (some trailerB) with
                    | none => none
                    | some infoNum =>
                      match read_object_full file offsets (infoNum : Int) with
                      | none => none
                      | some infoB =>
                        match findIndirectNum "Root" (some trailerB) with
                        | none => none
                        | some rootNum =>
                          match read_object_full file offsets (rootNum : Int) with
                          | none => none
                          | some catB =>
                            match findIndirectNum "Pages" catB with
                            | none => none
                            | some ptNum =>
                              match read_object_full file offsets (ptNum : Int) with
                              | none => none
                              | some ptB =>
                                match findKidsContent ptB with
                                | none => none
                                | some content =>
                                  let parts := splitOn0R [] content
                                  match parts.getLast? with
                                  | none => none
                                  | some trail =>
                                    if trail.all isWs then
                                      match parts.dropLast.mapM
                                          (readKid file offsets) with
                                      | none => none
                                      | some pages =>
                                        if pages.all (fun p =>
                                            findTypeName p.byte_string ==
                                              some (strB "Page")) then
                                          some {
                                            file := file,
                                            objects_offsets := offsets,
                                            startxref := startxref,
                                            info := ⟨infoNum, infoB⟩,
                                            catalog := ⟨rootNum, catB⟩,
                                            page_tree := ⟨ptNum, ptB⟩,
                                            pages := pages,
                                            finished := false,
                                            overwritten_objects_offsets := [],
                                            new_objects_offsets := [] }
                                        else none
                                    else none
                                else none
                else none
          | _ => none
        else none
      | _ => none

/-! ### Bookmark hierarchy builder (`process_bookmarks`)

Bookmark dicts are modelled by `BNode` (field `none` for Python `None`;
the root dict `{'Count': 0}` is the default node).  Python's
`last_by_level` and `indices_by_level` are appended to, deleted from and
indexed in lockstep, so a single stack of node indices represents both:
`last_by_level[j]` is the node whose index is `indices_by_level[j]`.
Python `int` arithmetic is over `Int`; list indexing, `del l[k:]` and
`range` follow Python semantics (negative wrap / clamping).  Labels and
destinations are carried as opaque values. -/

structure BNode where
  count : Nat := 0
  first : Option Nat := none
  last : Option Nat := none
  prev : Option Nat := none
  next : Option Nat := none
  parent : Option Nat := none
  label : Nat := 0
  dest : Nat := 0
deriving Repr, DecidableEq

/-- Python `del l[k:]`: keep the first `k` elements (`k < 0` counts from
the back, clamped at zero). -/
def pyTrunc {α : Type} (l : List α) (k : Int) : List α :=
  if 0 ≤ k then l.take k.toNat
  else l.take (l.length - Nat.min (-k).toNat l.length)

/-- The shift-popping loop:
`k = 0; while k < previous_level - level: k += 1 + level_shifts.pop()`.
The shift stack is stored top-first; popping from an empty stack raises
(`none`). -/
def popLoop (target : Int) (k : Int) : List Int → Option (List Int)
  | [] => if k < target then none else some []
  | s :: rest =>
    if k < target then popLoop target (k + 1 + s) rest
    else some (s :: rest)

/-- Replace the node at index `j` (out of range: impossible at use
sites, modelled as no-op). -/
def updNode : List BNode → Nat → (BNode → BNode) → List BNode
  | [], _, _ => []
  | b :: rest, 0, f => f b :: rest
  | b :: rest, j + 1, f => b :: updNode rest j f

/-- `for count_level in range(level): last_by_level[count_level]['Count'] += 1`
over the stack entries listed. -/
def incCounts (nodes : List BNode) (idxs : List Nat) : List BNode :=
  idxs.foldl (fun ns j => updNode ns j (fun b => { b with count := b.count + 1 })) nodes

/-- One iteration of the `process_bookmarks` loop.  `i` is the 1-based
bookmark index (equal to the current node-list length), `level0` the
declared level. -/
def bstep (nodes : List BNode) (stack : List Nat) (shifts : List Int)
    (i : Nat) (level0 : Int) (lab dst : Nat) :
    Option (List BNode × List Nat × List Int) :=
  (if level0 > (stack.length : Int) - 1 + shifts.sum then
      some ((level0 - ((stack.length : Int) - 1 + shifts.sum) - 1) :: shifts)
    else popLoop ((stack.length : Int) - 1 + shifts.sum - level0) 0 shifts).bind
    fun shifts' =>
  (pyIdx stack (level0 - shifts'.sum - 1)).bind fun par =>
  if level0 - shifts'.sum > (stack.length : Int) - 1 then
    -- first child: parent.First = i  (no truncation happens)
    if level0 - shifts'.sum > (stack.length : Int) then none
    else
      (pyIdx stack (level0 - shifts'.sum - 1)).bind fun lastT =>
        some (updNode (incCounts (updNode nodes par
            (fun b => { b with first := some i }))
            (stack.take (level0 - shifts'.sum).toNat)) lastT
            (fun b => { b with last := some i }) ++
          [{ count := 0, first := none, last := none, prev := none,
             next := none, parent := some par, label := lab, dest := dst }],
          stack ++ [i], shifts')
  else
    -- sibling of indices_by_level[level]; drop deeper levels
    (pyIdx stack (level0 - shifts'.sum)).bind fun sib =>
    if level0 - shifts'.sum >
        ((pyTrunc stack (level0 - shifts'.sum)).length : Int) then none
    else
      (pyIdx (pyTrunc stack (level0 - shifts'.sum))
          (level0 - shifts'.sum - 1)).bind fun lastT =>
        some (updNode (incCounts (updNode nodes sib
            (fun b => { b with next := some i }))
            ((pyTrunc stack (level0 - shifts'.sum)).take
              (level0 - shifts'.sum).toNat)) lastT
            (fun b => { b with last := some i }) ++
          [{ count := 0, first := none, last := none, prev := some sib,
             next := none, parent := some par, label := lab, dest := dst }],
          pyTrunc stack (level0 - shifts'.sum) ++ [i], shifts')

def bmRun : List BNode → List Nat → List Int → Nat → List (Int × Nat × Nat) →
    Option (List BNode)
  | nodes, _, _, _, [] => some nodes
  | nodes, stack, shifts, i, (lvl, lab, dst) :: rest =>
    (bstep nodes stack shifts i lvl lab dst).bind fun out =>
      bmRun out.1 out.2.1 out.2.2 (i + 1) rest

/-- `process_bookmarks`: returns the synthetic root and the bookmark
node list. -/
def process_bookmarks (raw : List (Int × Nat × Nat)) :
    Option (BNode × List BNode) :=
  (bmRun [{}] [0] [] 1 raw).bind fun nodes =>
    match nodes with
    | [] => none
    | root :: rest => some (root, rest)

/-! ### Write-side unfolding lemmas -/

theorem foldl_writeChunk {α : Type} (f : α → List Nat) :
    ∀ (l : List α) (s0 : PDFFile),
      l.foldl (fun s p => writeChunk s (f p)) s0 =
        { s0 with file := s0.file ++ (l.map f).flatten } := by
  intro l
  induction l with
  | nil => intro s0; simp [writeChunk]
  | cons a l ih =>
    intro s0
    rw [List.foldl_cons, ih]
    simp [writeChunk]

/-- The bytes `finish` appends to the file. -/
def finishTail (st : PDFFile) : List Nat :=
  strB "xref\n" ++
    (st.overwritten_objects_offsets.map (fun p => xrefSub1 p.1 p.2)).flatten ++
    (if st.new_objects_offsets.isEmpty then [] else
      natDigits st.objects_offsets.length ++ strB " " ++
        natDigits st.new_objects_offsets.length ++ strB "\n" ++
        (st.new_objects_offsets.map xrefLine).flatten) ++
    trailerBytes st.next_object_number st.catalog.object_number
      st.info.object_number st.startxref st.file.length

theorem finish_spec (st : PDFFile) (h : st.finished = false) :
    st.finish = some { st with finished := true, file := st.file ++ finishTail st } := by
  unfold PDFFile.finish PDFFile.start_writing
  rw [h]
  simp only [Bool.false_eq_true, if_false]
  rw [foldl_writeChunk (fun p : Nat × Nat => xrefSub1 p.1 p.2),
    foldl_writeChunk xrefLine]
  unfold finishTail
  by_cases hne : st.new_objects_offsets.isEmpty
  · simp [hne, writeChunk]
  · simp [hne, writeChunk]

theorem finish_finished (st st' : PDFFile) (h : st.finish = some st') :
    st'.finished = true := by
  by_cases hf : st.finished
  · unfold PDFFile.finish PDFFile.start_writing at h
    rw [if_pos hf] at h
    exact absurd h (by simp)
  · rw [finish_spec st (by simpa using hf)] at h
    have h2 := Option.some_inj.mp h
    rw [← h2]

theorem write_object_spec (st : PDFFile) (n : Nat) (b : List Nat)
    (h : st.finished = false) :
    st.write_object n b =
      some (st.file.length, { st with file := st.file ++ writtenObjectBytes n b }) := by
  unfold PDFFile.write_object PDFFile.start_writing
  rw [if_neg (by simp [h] : ¬st.finished = true)]
  rfl

theorem overwrite_object_spec (st : PDFFile) (n : Nat) (b : List Nat)
    (h : st.finished = false) :
    st.overwrite_object n b =
      some { st with
        file := st.file ++ writtenObjectBytes n b,
        overwritten_objects_offsets :=
          dictInsert st.overwritten_objects_offsets n st.file.length } := by
  unfold PDFFile.overwrite_object
  rw [write_object_spec st n b h]
  rfl

theorem write_new_object_spec (st : PDFFile) (b : List Nat)
    (h : st.finished = false) :
    st.write_new_object b =
      some (st.next_object_number,
        { st with
          file := st.file ++ writtenObjectBytes st.next_object_number b,
          new_objects_offsets := st.new_objects_offsets ++ [st.file.length] }) := by
  unfold PDFFile.write_new_object
  rw [write_object_spec st _ b h]
  rfl

/-! ### Sample stores for witnesses -/

def store0 : PDFFile :=
  { file := strB "%stub\n",
    objects_offsets := [none, some 3],
    startxref := 100,
    info := ⟨2, none⟩,
    catalog := ⟨1, none⟩,
    page_tree := ⟨3, none⟩,
    pages := [],
    finished := false,
    overwritten_objects_offsets := [],
    new_objects_offsets := [] }

/-- A store whose original cross-reference table listed 11 entries
(the free object 0 plus 10 real objects, numbers 1..10). -/
def store11 : PDFFile :=
  { file := [],
    objects_offsets := none :: (List.range 10).map (fun i => some (i : Int)),
    startxref := 100,
    info := ⟨2, none⟩,
    catalog := ⟨1, none⟩,
    page_tree := ⟨3, none⟩,
    pages := [],
    finished := false,
    overwritten_objects_offsets := [],
    new_objects_offsets := [] }

/-- A store holding one well-formed object (number 1 at offset 0). -/
def storeR : PDFFile :=
  { file := strB "1 0 obj\n<<\n>>\nendobj\n",
    objects_offsets := [none, some 0],
    startxref := 50,
    info := ⟨2, none⟩,
    catalog := ⟨1, none⟩,
    page_tree := ⟨3, none⟩,
    pages := [],
    finished := false,
    overwritten_objects_offsets := [],
    new_objects_offsets := [] }

/-! ### Further helper lemmas -/

theorem writes_fail_of_finished (st : PDFFile) (h : st.finished = true)
    (n : Nat) (b dbytes extra : List Nat) :
    st.overwrite_object n b = none ∧ st.extend_dict n dbytes extra = none ∧
      st.write_new_object b = none ∧ st.finish = none := by
  have hsw : st.start_writing = none := by simp [PDFFile.start_writing, h]
  refine ⟨?_, ?_, ?_, ?_⟩
  · simp [PDFFile.overwrite_object, PDFFile.write_object, hsw]
  · unfold PDFFile.extend_dict
    by_cases hs : (strB ">>\n").isSuffixOf dbytes
    · simp [hs, PDFFile.overwrite_object, PDFFile.write_object, hsw]
    · simp [hs]
  · simp [PDFFile.write_new_object, PDFFile.write_object, hsw]
  · simp [PDFFile.finish, hsw]

theorem dictInsert_of_not_mem (d : List (Nat × Nat)) (k v : Nat)
    (h : k ∉ d.map Prod.fst) : dictInsert d k v = d ++ [(k, v)] := by
  unfold dictInsert
  rw [if_neg]
  intro hany
  rw [List.any_eq_true] at hany
  obtain ⟨p, hp, he⟩ := hany
  exact h (List.mem_map.mpr ⟨p, hp, by simpa using he⟩)

theorem dictInsert_update_last (d : List (Nat × Nat)) (k v w : Nat)
    (h : k ∉ d.map Prod.fst) :
    dictInsert (d ++ [(k, v)]) k w = d ++ [(k, w)] := by
  unfold dictInsert
  rw [if_pos]
  · rw [List.map_append]
    congr 1
    · conv_rhs => rw [← List.map_id d]
      refine List.map_congr_left (fun p hp => ?_)
      rw [if_neg, id]
      intro he
      exact h (List.mem_map.mpr ⟨p, hp, he⟩)
    · simp
  · simp

/-- Repeated `write_new_object` calls, collecting the returned numbers. -/
def writeNewMany : PDFFile → List (List Nat) → Option (List Nat × PDFFile)
  | st, [] => some ([], st)
  | st, b :: bs =>
    (st.write_new_object b).bind fun p =>
      (writeNewMany p.2 bs).map fun q => (p.1 :: q.1, q.2)

theorem writeNewMany_numbers : ∀ (bs : List (List Nat)) (st : PDFFile),
    st.finished = false →
    ∃ st'', writeNewMany st bs =
        some (List.range' st.next_object_number bs.length, st'') ∧
      st''.finished = false := by
  intro bs
  induction bs with
  | nil =>
    intro st h
    exact ⟨st, by simp [writeNewMany], h⟩
  | cons b bs ih =>
    intro st h
    obtain ⟨st'', heq, hf⟩ := ih
      { st with
        file := st.file ++ writtenObjectBytes st.next_object_number b,
        new_objects_offsets := st.new_objects_offsets ++ [st.file.length] } h
    refine ⟨st'', ?_, hf⟩
    rw [writeNewMany, write_new_object_spec st b h, Option.some_bind, heq]
    have hnext : ({ st with
        file := st.file ++ writtenObjectBytes st.next_object_number b,
        new_objects_offsets :=
          st.new_objects_offsets ++ [st.file.length] } : PDFFile).next_object_number =
        st.next_object_number + 1 := by
      simp [PDFFile.next_object_number]
      omega
    rw [hnext]
    simp [List.range'_succ]

/-! ### Claim theorems -/

/-- C8: for every Unicode string `s`, the `!P` conversion produces
`'('` ++ E ++ `')'` where `E` is the UTF-16BE encoding of U+FEFF
followed by `s`, with each byte 0x28, 0x29, 0x5C replaced by a backslash
followed by that byte and every other byte unchanged. -/
theorem C8_escaped_utf16 (s : String) :
    convert_field_P s =
      [40] ++ (utf16beEncode (0xFEFF :: s.data.map Char.toNat)).flatMap
        escapeByteSpec ++ [41] := by
  unfold convert_field_P
  rw [pyTranslateEsc_eq_escape]

/-- C7: `finish` is single-use and closes the store to writing: once a
store is finished, `overwrite_object`, `extend_dict`, `write_new_object`
fail and append nothing, and `finish` fails; in particular after a
successful `finish` every such call, including a second `finish`, fails. -/
theorem C7_store_closed_after_finish (st : PDFFile) (n : Nat)
    (b dbytes extra : List Nat) :
    (st.finished = true →
      st.overwrite_object n b = none ∧ st.extend_dict n dbytes extra = none ∧
        st.write_new_object b = none ∧ st.finish = none) ∧
    (∀ st', st.finish = some st' →
      st'.overwrite_object n b = none ∧ st'.extend_dict n dbytes extra = none ∧
        st'.write_new_object b = none ∧ st'.finish = none) := by
  refine ⟨fun h => writes_fail_of_finished st h n b dbytes extra, fun st' hf => ?_⟩
  exact writes_fail_of_finished st' (finish_finished st st' hf) n b dbytes extra

/-- The state `store0.finish` produces. -/
def store0F : PDFFile :=
  { store0 with finished := true, file := store0.file ++ finishTail store0 }

theorem C7_witness :
    ({ store0 with finished := true } : PDFFile).overwrite_object 5 [60] = none ∧
      store0.finish = some store0F ∧ store0F.finish = none := by
  refine ⟨((C7_store_closed_after_finish { store0 with finished := true }
    5 [60] [] []).1 rfl).1, finish_spec store0 rfl, ?_⟩
  exact ((C7_store_closed_after_finish store0 5 [60] [] []).2 store0F
    (finish_spec store0 rfl)).2.2.2

/-- C1: a single `finish` call on an unfinished store appends, in order:
the keyword line `xref`; one 1-entry cross-reference subsection per
overwritten object number, in dict (insertion) order of the
`overwrite_object` calls; if any new objects were written, one
contiguous subsection covering all of them; then a trailer whose `Size`
is the original object count plus the number of new objects, whose
`Root`/`Info` are the unchanged catalog and info numbers and whose
`Prev` is the original `startxref` offset, followed by `startxref` and
the byte offset at which this new section begins. -/
theorem C1_finish_emission (st : PDFFile) (h : st.finished = false) :
    st.finish = some { st with
      finished := true,
      file := st.file ++
        (strB "xref\n" ++
          (st.overwritten_objects_offsets.map (fun p => xrefSub1 p.1 p.2)).flatten ++
          (if st.new_objects_offsets.isEmpty then [] else
            natDigits st.objects_offsets.length ++ strB " " ++
              natDigits st.new_objects_offsets.length ++ strB "\n" ++
              (st.new_objects_offsets.map xrefLine).flatten) ++
          trailerBytes (st.objects_offsets.length + st.new_objects_offsets.length)
            st.catalog.object_number st.info.object_number st.startxref
            st.file.length) } := by
  rw [finish_spec st h]
  rfl

theorem C1_witness :
    store0.finish = some { store0 with
      finished := true,
      file := store0.file ++
        (strB "xref\n" ++
          (store0.overwritten_objects_offsets.map (fun p => xrefSub1 p.1 p.2)).flatten ++
          (if store0.new_objects_offsets.isEmpty then [] else
            natDigits store0.objects_offsets.length ++ strB " " ++
              natDigits store0.new_objects_offsets.length ++ strB "\n" ++
              (store0.new_objects_offsets.map xrefLine).flatten) ++
          trailerBytes
            (store0.objects_offsets.length + store0.new_objects_offsets.length)
            store0.catalog.object_number store0.info.object_number store0.startxref
            store0.file.length) } :=
  C1_finish_emission store0 rfl

/-- The store after writing three new objects on `store11`. -/
def store11W : PDFFile :=
  { store11 with
    file := writtenObjectBytes 11 (strB "<<A>>") ++
      writtenObjectBytes 12 (strB "<<B>>") ++ writtenObjectBytes 13 (strB "<<C>>"),
    new_objects_offsets := [0, 22, 44] }

/-- C3: on an unfinished store parsed with `T` original cross-reference
entries and no new objects yet, successive `write_new_object` calls
return `T, T+1, ...` (the k-th call returns exactly `k` more than the
last original object number `T-1`, strictly increasing and gap-free);
concretely, on a store with 10 real original objects (11 entries
including the free object 0) three calls return 11, 12, 13 and `finish`
emits exactly one new-object subsection `'11 3'` followed by the three
offset lines in call order. -/
theorem C3_new_object_numbering :
    (∀ (st : PDFFile) (bs : List (List Nat)), st.finished = false →
      st.new_objects_offsets = [] →
      ∃ st'', writeNewMany st bs =
        some (List.range' st.objects_offsets.length bs.length, st'')) ∧
    writeNewMany store11 [strB "<<A>>", strB "<<B>>", strB "<<C>>"] =
      some ([11, 12, 13], store11W) ∧
    store11W.finish = some { store11W with
      finished := true,
      file := store11W.file ++
        (strB "xref\n" ++ strB "11 3\n" ++ xrefLine 0 ++ xrefLine 22 ++ xrefLine 44 ++
          trailerBytes 14 1 2 100 store11W.file.length) } := by
  refine ⟨?_, ?_, ?_⟩
  · intro st bs h hnew
    obtain ⟨st'', heq, -⟩ := writeNewMany_numbers bs st h
    refine ⟨st'', ?_⟩
    rw [heq]
    simp [PDFFile.next_object_number, hnew]
  · decide
  · decide

theorem C3_witness :
    (writeNewMany store11 [[60], [61], [62]]).map Prod.fst = some [11, 12, 13] := by
  obtain ⟨st'', heq⟩ := C3_new_object_numbering.1 store11 [[60], [61], [62]] rfl rfl
  rw [heq]
  rfl

/-- C9: overwriting the same object number twice before `finish` keeps
only the last offset: both calls append full physical copies, the dict
retains a single entry for `n` holding the offset of the second copy,
and `finish`'s overwritten-subsection chunk contains exactly one 1-entry
subsection for `n`, pointing at the most recently appended copy. -/
theorem C9_overwrite_last_wins (st : PDFFile) (n : Nat) (b1 b2 : List Nat)
    (st1 st2 : PDFFile) (h : st.finished = false)
    (hfresh : n ∉ st.overwritten_objects_offsets.map Prod.fst)
    (h1 : st.overwrite_object n b1 = some st1)
    (h2 : st1.overwrite_object n b2 = some st2) :
    st2.file = st.file ++ writtenObjectBytes n b1 ++ writtenObjectBytes n b2 ∧
    st2.overwritten_objects_offsets =
      st.overwritten_objects_offsets ++
        [(n, st.file.length + (writtenObjectBytes n b1).length)] ∧
    (st2.overwritten_objects_offsets.map Prod.fst).count n = 1 ∧
    (st2.overwritten_objects_offsets.map (fun p => xrefSub1 p.1 p.2)).flatten =
      (st.overwritten_objects_offsets.map (fun p => xrefSub1 p.1 p.2)).flatten ++
        xrefSub1 n (st.file.length + (writtenObjectBytes n b1).length) ∧
    st2.finish = some { st2 with
      finished := true,
      file := st2.file ++ finishTail st2 } := by
  rw [overwrite_object_spec st n b1 h] at h1
  have hst1 := (Option.some_inj.mp h1).symm
  have h1fin : st1.finished = false := by rw [hst1]; exact h
  rw [overwrite_object_spec st1 n b2 h1fin] at h2
  have hst2 := (Option.some_inj.mp h2).symm
  have hd1 : st1.overwritten_objects_offsets =
      st.overwritten_objects_offsets ++ [(n, st.file.length)] := by
    rw [hst1]
    exact dictInsert_of_not_mem _ n _ hfresh
  have hfile1 : st1.file = st.file ++ writtenObjectBytes n b1 := by rw [hst1]
  have hd2 : st2.overwritten_objects_offsets =
      st.overwritten_objects_offsets ++ [(n, st.file.length + (writtenObjectBytes n b1).length)] := by
    rw [hst2]
    show dictInsert st1.overwritten_objects_offsets n st1.file.length = _
    rw [hd1, hfile1, dictInsert_update_last _ n _ _ hfresh]
    simp
  have hfile2 : st2.file = st.file ++ writtenObjectBytes n b1 ++ writtenObjectBytes n b2 := by
    rw [hst2, hfile1]
  have h2fin : st2.finished = false := by rw [hst2]; exact h1fin
  refine ⟨hfile2, hd2, ?_, ?_, finish_spec st2 h2fin⟩
  · rw [hd2]
    simp only [List.map_append, List.count_append]
    rw [List.count_eq_zero.mpr hfresh]
    simp [List.count_cons]
  · rw [hd2]
    simp

/-- The store after one overwrite of object 1 on `storeR`. -/
def storeR1 : PDFFile :=
  { storeR with
    file := storeR.file ++ writtenObjectBytes 1 [60],
    overwritten_objects_offsets := [(1, 21)] }

/-- The store after a second overwrite of object 1. -/
def storeR2 : PDFFile :=
  { storeR1 with
    file := storeR1.file ++ writtenObjectBytes 1 [61],
    overwritten_objects_offsets := [(1, 38)] }

theorem C9_witness :
    storeR.overwrite_object 1 [60] = some storeR1 ∧
    storeR1.overwrite_object 1 [61] = some storeR2 ∧
    storeR2.overwritten_objects_offsets = [(1, 38)] ∧
    (storeR2.overwritten_objects_offsets.map Prod.fst).count 1 = 1 := by
  have h1 : storeR.overwrite_object 1 [60] = some storeR1 := by decide
  have h2 : storeR1.overwrite_object 1 [61] = some storeR2 := by decide
  have hmain := C9_overwrite_last_wins storeR 1 [60] [61] storeR1 storeR2 rfl
    (by decide) h1 h2
  exact ⟨h1, h2, by decide, hmain.2.2.1⟩

/-- C5: `overwrite_object` only appends at the current end of file: the
original offset table and every byte before the previous end of file are
unchanged, so a subsequent `read_object n` (resolving through the
pre-update offset table) still returns the pre-overwrite body. -/
theorem C5_overwrite_isolation (st : PDFFile) (n : Nat) (b : List Nat)
    (h : st.finished = false) :
    ∃ st', st.overwrite_object n b = some st' ∧
      st'.objects_offsets = st.objects_offsets ∧
      st'.file = st.file ++ writtenObjectBytes n b ∧
      st'.file.take st.file.length = st.file ∧
      (∀ r, st.read_object n = some r → st'.read_object n = some r) := by
  refine ⟨{ st with
      file := st.file ++ writtenObjectBytes n b,
      overwritten_objects_offsets :=
        dictInsert st.overwritten_objects_offsets n st.file.length },
    overwrite_object_spec st n b h, rfl, rfl, by simp, ?_⟩
  intro r hr
  exact read_object_raw_append st.file (writtenObjectBytes n b)
    st.objects_offsets n r hr

theorem C5_witness :
    storeR.read_object 1 = some (strB "<<\n>>\n") ∧
    storeR.overwrite_object 1 [60] = some storeR1 ∧
    storeR1.read_object 1 = some (strB "<<\n>>\n") := by
  have h1 : storeR.overwrite_object 1 [60] = some storeR1 := by decide
  have hrd : storeR.read_object 1 = some (strB "<<\n>>\n") := by decide
  obtain ⟨st', heq, -, -, -, hread⟩ := C5_overwrite_isolation storeR 1 [60] rfl
  have hs : storeR1 = st' := Option.some_inj.mp (h1.symm.trans heq)
  exact ⟨hrd, h1, by rw [hs]; exact hread _ hrd⟩

/-- C6: for an object number with a recorded offset, `read_object` seeks
there and succeeds exactly when the line at that offset is a header for
`n` and the following lines run up to a line exactly `'>>\n'`
immediately followed by `'endobj\n'`, returning the accumulated body; on
any mismatch — in particular when no `'>>\n'` line occurs at all — it
produces no value. -/
theorem C6_read_object_shape (st : PDFFile) (n : Nat) (off : Int)
    (hoff : st.objects_offsets.get? n = some (some off)) (hpos : 0 ≤ off) :
    (∀ r, st.read_object n = some r ↔
      ∃ header pre rest,
        linesFrom (st.file.drop off.toNat) =
          header :: (pre ++ dictCloseLine :: endobjLine :: rest) ∧
        headerOk header (n : Int) = true ∧ dictCloseLine ∉ pre ∧
        r = pre.flatten ++ dictCloseLine) ∧
    (dictCloseLine ∉ linesFrom (st.file.drop off.toNat) →
      st.read_object n = none) := by
  have hidx : pyIdx st.objects_offsets (n : Int) = some (some off) := by
    unfold pyIdx
    rw [if_pos (by omega : (0 : Int) ≤ (n : Int))]
    simpa using hoff
  have hchar : ∀ r, st.read_object n = some r ↔
      ∃ header pre rest,
        linesFrom (st.file.drop off.toNat) =
          header :: (pre ++ dictCloseLine :: endobjLine :: rest) ∧
        headerOk header (n : Int) = true ∧ dictCloseLine ∉ pre ∧
        r = pre.flatten ++ dictCloseLine := by
    intro r
    rw [PDFFile.read_object, read_object_raw_eq_some_iff]
    constructor
    · rintro ⟨off', header, rest, hoff', hpos', hlines, hhdr, hscan⟩
      have hoo : off = off' := by simpa using hidx.symm.trans hoff'
      subst hoo
      obtain ⟨pre, rest', hdec, hpre, hr⟩ :=
        (scanLines_eq_some_iff rest [] r).mp hscan
      exact ⟨header, pre, rest', by rw [hlines, hdec], hhdr, hpre, by simpa using hr⟩
    · rintro ⟨header, pre, rest', hlines, hhdr, hpre, hr⟩
      refine ⟨off, header, _, hidx, hpos, hlines, hhdr, ?_⟩
      rw [scanLines_eq_some_iff]
      exact ⟨pre, rest', rfl, hpre, by simpa using hr⟩
  refine ⟨hchar, fun hno => ?_⟩
  cases hread : st.read_object n with
  | none => rfl
  | some r =>
    exfalso
    obtain ⟨header, pre, rest', hlines, -, -, -⟩ := (hchar r).mp hread
    refine hno ?_
    rw [hlines]
    exact List.mem_cons_of_mem _
      (List.mem_append_right _ (List.mem_cons_self _ _))

theorem C6_witness :
    storeR.objects_offsets.get? 1 = some (some 0) ∧
    storeR.read_object 1 = some (strB "<<\n>>\n") := by
  refine ⟨rfl, ?_⟩
  have h := (C6_read_object_shape storeR 1 0 rfl (by decide)).1 (strB "<<\n>>\n")
  exact h.mpr ⟨strB "1 0 obj\n", [strB "<<\n"], [], by decide, by decide,
    by decide, by decide⟩

/-- C10: construction searches for the trailer only within the final 200
bytes: whenever the byte sequence `'\ntrailer\n'` does not occur inside
the last 200 bytes, `PDFFile.init` fails outright — even when the file
ends with a syntactically valid trailer block whose keyword lies before
that window (see the witness). -/
theorem C10_trailer_window (file : List Nat)
    (h : (List.range 200).all
      (fun i => !(occursAt nlTrailerNl (file.drop (file.length - 200)) i)) = true) :
    PDFFile.init file = none := by
  unfold PDFFile.init
  by_cases hlen : file.length < 200
  · rw [if_pos hlen]
  · rw [if_neg hlen]
    have hwin : (file.drop (file.length - 200)).length ≤ 200 := by
      simp [List.length_drop]
      omega
    have hsearch : trailer_search (file.drop (file.length - 200)) = none := by
      unfold trailer_search
      have hfind : (List.range (file.drop (file.length - 200)).length).find?
          (fun i => occursAt nlTrailerNl (file.drop (file.length - 200)) i &&
            (List.range (file.drop (file.length - 200)).length).any
              (fun j => decide (i + 10 ≤ j) &&
                validStartxrefAt (file.drop (file.length - 200)) j)) = none := by
        rw [List.find?_eq_none]
        intro i hi
        have hi200 : i < 200 := lt_of_lt_of_le (List.mem_range.mp hi) hwin
        have hocc : occursAt nlTrailerNl (file.drop (file.length - 200)) i = false := by
          have := List.all_eq_true.mp h i (List.mem_range.mpr hi200)
          simpa using this
        simp [hocc]
      rw [hfind]
    rw [hsearch]

/-- A file that ends with a syntactically valid trailer block whose
`trailer` keyword lies before the final 200 bytes (the dictionary is
padded past 200 bytes). -/
def straddlerFile : List Nat :=
  strB "%PDF-1.4\nsome object data\n" ++ strB "trailer\n" ++
    strB "<< /Size 9 /Root 1 0 R /Info 2 0 R /Pad (" ++
    List.replicate 170 65 ++
    strB ") >>\nstartxref\n42\n%%EOF\n"

theorem C10_witness :
    (List.range 200).all
      (fun i => !(occursAt nlTrailerNl
        (straddlerFile.drop (straddlerFile.length - 200)) i)) = true ∧
    (trailer_search straddlerFile).isSome = true ∧
    PDFFile.init straddlerFile = none :=
  ⟨by decide, by decide, C10_trailer_window straddlerFile (by decide)⟩

/-- C4: input depths `[1, 3, 1]` succeed; the depth-3 entry becomes the
sole child of the first entry (its `First` and `Last` both point to node
2, its `Count` is 1) and the third entry is a top-level sibling of the
first (parent is the root, `Prev` is node 1), not a child of an invented
depth-2 node. -/
theorem C4_depth_jump_tolerance (a b c d e f : Nat) :
    process_bookmarks [(1, a, b), (3, c, d), (1, e, f)] =
      some ({ count := 3, first := some 1, last := some 3, prev := none,
              next := none, parent := none, label := 0, dest := 0 },
        [{ count := 1, first := some 2, last := some 2, prev := none,
           next := some 3, parent := some 0, label := a, dest := b },
         { count := 0, first := none, last := none, prev := none,
           next := none, parent := some 1, label := c, dest := d },
         { count := 0, first := none, last := none, prev := some 1,
           next := none, parent := some 0, label := e, dest := f }]) := rfl

/-- C2 counterexample: on declared levels `[4, 3]` (all `≥ 1`) the
bookmark builder crashes — the shift-pop loop overshoots, the computed
effective level is 3, and `indices_by_level[2]` raises `IndexError` — so
`process_bookmarks` returns no root/node list at all. -/
theorem C2_counterexample : process_bookmarks [(4, 0, 0), (3, 0, 0)] = none := by
  decide

/-! ### Ancestry in the constructed bookmark tree

The tree built by `process_bookmarks` is encoded by the `parent` fields
(index 0 is the root).  `ancestors nodes v` is the chain of strict
ancestors of node `v` obtained by following `parent`; parents always
point to earlier indices, so fuel `v` is exact.  `descCount nodes v`
counts the nodes having `v` as a strict ancestor. -/

def parOf (nodes : List BNode) (v : Nat) : Option Nat :=
  (nodes.get? v).bind BNode.parent

def ancChain (nodes : List BNode) : Nat → Nat → List Nat
  | 0, _ => []
  | fuel + 1, v =>
    match parOf nodes v with
    | none => []
    | some p => p :: ancChain nodes fuel p

def ancestors (nodes : List BNode) (v : Nat) : List Nat := ancChain nodes v v

def descCount (nodes : List BNode) (v : Nat) : Nat :=
  ((List.range nodes.length).filter (fun j => decide (v ∈ ancestors nodes j))).length

/-- Parents point strictly backwards. -/
def ParentsLt (nodes : List BNode) : Prop :=
  ∀ v b p, nodes.get? v = some b → b.parent = some p → p < v

theorem parOf_some {nodes : List BNode} {v p : Nat} (h : parOf nodes v = some p) :
    ∃ b, nodes.get? v = some b ∧ b.parent = some p := by
  unfold parOf at h
  exact Option.bind_eq_some.mp h

theorem parOf_lt {nodes : List BNode} (hp : ParentsLt nodes) {v p : Nat}
    (h : parOf nodes v = some p) : p < v := by
  obtain ⟨b, hb, hbp⟩ := parOf_some h
  exact hp v b p hb hbp

theorem ancChain_congr_fuel (nodes : List BNode) (hp : ParentsLt nodes) :
    ∀ v fuel fuel', v ≤ fuel → v ≤ fuel' →
      ancChain nodes fuel v = ancChain nodes fuel' v := by
  intro v
  induction v using Nat.strong_induction_on with
  | _ v ih =>
    intro fuel fuel' h1 h2
    match fuel, fuel' with
    | 0, 0 => rfl
    | 0, f' + 1 =>
      have hv : v = 0 := Nat.le_zero.mp h1
      subst hv
      cases hpar : parOf nodes 0 with
      | none => simp [ancChain, hpar]
      | some p => exact absurd (parOf_lt hp hpar) (by omega)
    | f + 1, 0 =>
      have hv : v = 0 := Nat.le_zero.mp h2
      subst hv
      cases hpar : parOf nodes 0 with
      | none => simp [ancChain, hpar]
      | some p => exact absurd (parOf_lt hp hpar) (by omega)
    | f + 1, f' + 1 =>
      cases hpar : parOf nodes v with
      | none => simp [ancChain, hpar]
      | some p =>
        have hlt : p < v := parOf_lt hp hpar
        simp only [ancChain, hpar]
        rw [ih p hlt f f' (by omega) (by omega)]

theorem ancChain_eq_ancestors (nodes : List BNode) (hp : ParentsLt nodes)
    (v fuel : Nat) (h : v ≤ fuel) : ancChain nodes fuel v = ancestors nodes v :=
  ancChain_congr_fuel nodes hp v fuel v h le_rfl

theorem ancChain_lt (nodes : List BNode) (hp : ParentsLt nodes) :
    ∀ fuel v w, w ∈ ancChain nodes fuel v → w < v := by
  intro fuel
  induction fuel with
  | zero => intro v w hw; simp [ancChain] at hw
  | succ f ih =>
    intro v w hw
    cases hpar : parOf nodes v with
    | none => rw [ancChain, hpar] at hw; simp at hw
    | some p =>
      rw [ancChain, hpar] at hw
      rcases List.mem_cons.mp hw with hw | hw
      · subst hw; exact parOf_lt hp hpar
      · exact lt_trans (ih p w hw) (parOf_lt hp hpar)

theorem ancestors_lt (nodes : List BNode) (hp : ParentsLt nodes) (v w : Nat)
    (h : w ∈ ancestors nodes v) : w < v :=
  ancChain_lt nodes hp v v w h

/-- Two node lists agreeing on `parOf` up to `v` have the same ancestor
chains at `v`. -/
theorem ancChain_congr (n1 n2 : List BNode) (hp : ParentsLt n1) :
    ∀ fuel v, (∀ w, w ≤ v → parOf n2 w = parOf n1 w) →
      ancChain n2 fuel v = ancChain n1 fuel v := by
  intro fuel
  induction fuel with
  | zero => intro v h; rfl
  | succ f ih =>
    intro v h
    cases hpar : parOf n1 v with
    | none => simp [ancChain, h v le_rfl, hpar]
    | some p =>
      have hlt : p < v := parOf_lt hp hpar
      simp only [ancChain, h v le_rfl, hpar]
      rw [ih p (fun w hw => h w (by omega))]

theorem ancestors_congr (n1 n2 : List BNode) (hp : ParentsLt n1) (v : Nat)
    (h : ∀ w, w ≤ v → parOf n2 w = parOf n1 w) :
    ancestors n2 v = ancestors n1 v :=
  ancChain_congr n1 n2 hp v v h

/-! ### Basic lemmas on `updNode`, `incCounts`, `popLoop`, `pyIdx` -/

theorem updNode_length : ∀ (nodes : List BNode) (j : Nat) (f : BNode → BNode),
    (updNode nodes j f).length = nodes.length := by
  intro nodes
  induction nodes with
  | nil => intro j f; rfl
  | cons b rest ih =>
    intro j f
    cases j with
    | zero => rfl
    | succ j => simp [updNode, ih]

theorem updNode_get?_eq : ∀ (nodes : List BNode) (j : Nat) (f : BNode → BNode),
    (updNode nodes j f).get? j = (nodes.get? j).map f := by
  intro nodes
  induction nodes with
  | nil => intro j f; cases j <;> rfl
  | cons b rest ih =>
    intro j f
    cases j with
    | zero => rfl
    | succ j => simpa [updNode] using ih j f

theorem updNode_get?_ne : ∀ (nodes : List BNode) (j : Nat) (f : BNode → BNode)
    (v : Nat), v ≠ j → (updNode nodes j f).get? v = nodes.get? v := by
  intro nodes
  induction nodes with
  | nil => intro j f v _; cases j <;> rfl
  | cons b rest ih =>
    intro j f v hv
    cases j with
    | zero =>
      cases v with
      | zero => exact absurd rfl hv
      | succ v => rfl
    | succ j =>
      cases v with
      | zero => rfl
      | succ v => simpa [updNode] using ih j f v (by omega)

theorem updNode_get? (nodes : List BNode) (j : Nat) (f : BNode → BNode)
    (v : Nat) :
    (updNode nodes j f).get? v =
      if v = j then (nodes.get? v).map f else nodes.get? v := by
  by_cases hv : v = j
  · rw [if_pos hv, hv, updNode_get?_eq]
  · rw [if_neg hv, updNode_get?_ne nodes j f v hv]

theorem incCounts_get? : ∀ (idxs : List Nat) (nodes : List BNode) (v : Nat),
    (incCounts nodes idxs).get? v =
      (nodes.get? v).map (fun b => { b with count := b.count + idxs.count v }) := by
  intro idxs
  induction idxs with
  | nil =>
    intro nodes v
    cases h : nodes.get? v with
    | none => rw [show incCounts nodes [] = nodes from rfl, h]; rfl
    | some b => rw [show incCounts nodes [] = nodes from rfl, h]; rfl
  | cons j idxs ih =>
    intro nodes v
    show (incCounts (updNode nodes j
      (fun b => { b with count := b.count + 1 })) idxs).get? v = _
    rw [ih, updNode_get?]
    by_cases hv : v = j
    · rw [if_pos hv, hv]
      cases h : nodes.get? j with
      | none => rfl
      | some b =>
        show some ({ b with count := b.count + 1 + idxs.count j } : BNode) =
          some ({ b with count := b.count + (j :: idxs).count j } : BNode)
        rw [List.count_cons_self]
        have harith : b.count + 1 + idxs.count j = b.count + (idxs.count j + 1) := by
          omega
        rw [harith]
    · rw [if_neg hv]
      cases h : nodes.get? v with
      | none => rfl
      | some b =>
        show some ({ b with count := b.count + idxs.count v } : BNode) =
          some ({ b with count := b.count + (j :: idxs).count v } : BNode)
        rw [List.count_cons_of_ne hv]

theorem incCounts_length (idxs : List Nat) (nodes : List BNode) :
    (incCounts nodes idxs).length = nodes.length := by
  induction idxs generalizing nodes with
  | nil => rfl
  | cons j idxs ih =>
    show (incCounts (updNode nodes j _) idxs).length = _
    rw [ih, updNode_length]

theorem popLoop_spec : ∀ (sh : List Int) (target k : Int) (rest : List Int),
    popLoop target k sh = some rest →
    ∃ pops, sh = pops ++ rest ∧ target ≤ k + pops.length + pops.sum := by
  intro sh
  induction sh with
  | nil =>
    intro target k rest h
    unfold popLoop at h
    by_cases hk : k < target
    · rw [if_pos hk] at h; exact absurd h (by simp)
    · rw [if_neg hk] at h
      have hr : ([] : List Int) = rest := Option.some_inj.mp h
      exact ⟨[], by rw [← hr]; rfl, by simp; omega⟩
  | cons s sh ih =>
    intro target k rest h
    unfold popLoop at h
    by_cases hk : k < target
    · rw [if_pos hk] at h
      obtain ⟨pops, hdec, hsum⟩ := ih target (k + 1 + s) rest h
      refine ⟨s :: pops, by simp [hdec], ?_⟩
      simp only [List.length_cons, List.sum_cons]
      push_cast
      omega
    · rw [if_neg hk] at h
      have hr : s :: sh = rest := Option.some_inj.mp h
      exact ⟨[], by rw [← hr]; rfl, by simp; omega⟩

theorem pyIdx_nonneg {α : Type} (l : List α) (i : Int) (hi : 0 ≤ i) :
    pyIdx l i = l.get? i.toNat := by
  simp [pyIdx, hi]

theorem pyIdx_some_nonneg {α : Type} {l : List α} {i : Int} {x : α}
    (hi : 0 ≤ i) (h : pyIdx l i = some x) :
    i.toNat < l.length ∧ l.get? i.toNat = some x := by
  rw [pyIdx_nonneg l i hi] at h
  obtain ⟨hlt, -⟩ := List.get?_eq_some.mp h
  exact ⟨hlt, h⟩

/-! ### The loop invariant of `process_bookmarks`

After processing some prefix of the input: the stack of
`indices_by_level` entries is a root-to-leaf chain of node indices (each
entry's parent is the previous entry), every node's `count` equals its
current number of strict descendants, every bookmark node's ancestor
chain ends at the root, shift entries are non-negative, and there are
strictly fewer shifts than stack entries (so the effective level can
never go negative). -/

structure BInv (nodes : List BNode) (stack : List Nat) (shifts : List Int) :
    Prop where
  stack_ne : stack ≠ []
  stack_head : stack.head? = some 0
  stack_lt : ∀ x ∈ stack, x < nodes.length
  stack_mono : stack.Pairwise (· < ·)
  parents_lt : ParentsLt nodes
  stack_anc : ∀ j par, stack.get? j = some par →
      ancestors nodes par = (stack.take j).reverse
  count_inv : ∀ v b, nodes.get? v = some b → b.count = descCount nodes v
  root_anc : ∀ j, 1 ≤ j → j < nodes.length → 0 ∈ ancestors nodes j
  shifts_nonneg : ∀ x ∈ shifts, 0 ≤ x
  shifts_len : shifts.length + 1 ≤ stack.length

theorem descCount_split (n1 n2 : List BNode) (hlen : n2.length = n1.length + 1)
    (hanc : ∀ j, j < n1.length → ancestors n2 j = ancestors n1 j) (v : Nat) :
    descCount n2 v =
      descCount n1 v + (if v ∈ ancestors n2 n1.length then 1 else 0) := by
  unfold descCount
  rw [hlen]
  have h1 : (List.range n1.length).filter (fun j => decide (v ∈ ancestors n2 j)) =
      (List.range n1.length).filter (fun j => decide (v ∈ ancestors n1 j)) := by
    apply List.filter_congr
    intro j hj
    rw [hanc j (List.mem_range.mp hj)]
  rw [List.range_succ, List.filter_append, List.length_append, h1]
  congr 1
  by_cases hv : v ∈ ancestors n2 n1.length
  · simp [hv]
  · simp [hv]

/-- Core preservation lemma: one successful loop iteration at effective
level `e` keeps the invariant.  `nodesMid` is the old node list after
the iteration's `First`/`Next`/`Last`/`Count` mutations (parents
untouched, counts incremented exactly on the surviving stack prefix),
and `bk` is the node appended for bookmark `i = nodes.length`. -/
theorem bstep_core (nodes : List BNode) (stack : List Nat)
    (shifts shifts' : List Int) (inv : BInv nodes stack shifts)
    (e : Nat) (he1 : 1 ≤ e) (he2 : e ≤ stack.length)
    (par : Nat) (hpar : stack.get? (e - 1) = some par)
    (bk : BNode) (hbkpar : bk.parent = some par) (hbkcount : bk.count = 0)
    (nodesMid : List BNode) (hmidlen : nodesMid.length = nodes.length)
    (hmid : ∀ v b, nodes.get? v = some b → ∃ b', nodesMid.get? v = some b' ∧
      b'.parent = b.parent ∧ b'.count = b.count + (stack.take e).count v)
    (hsn : ∀ x ∈ shifts', 0 ≤ x) (hsl : shifts'.length ≤ e) :
    BInv (nodesMid ++ [bk]) (stack.take e ++ [nodes.length]) shifts' ∧
      (nodesMid ++ [bk]).length = nodes.length + 1 := by
  obtain ⟨f, hf⟩ : ∃ f, e = f + 1 := ⟨e - 1, by omega⟩
  have hparf : stack.get? f = some par := by
    rw [show f = e - 1 by omega]
    exact hpar
  set i := nodes.length with hi
  set K := stack.take e with hK
  set nodes' := nodesMid ++ [bk] with hnodes'
  have hKlen : K.length = e := by
    rw [hK, List.length_take]
    omega
  have hKsub : ∀ x ∈ K, x ∈ stack := fun x hx => List.take_subset e stack hx
  have hKlt : ∀ x ∈ K, x < i := fun x hx => inv.stack_lt x (hKsub x hx)
  have hKpw : K.Pairwise (· < ·) :=
    List.Pairwise.sublist (List.take_sublist e stack) inv.stack_mono
  have hKnd : K.Nodup := hKpw.imp (fun hab => ne_of_lt hab)
  have hpar_mem : par ∈ stack := List.get?_mem hpar
  have hpar_lt : par < i := inv.stack_lt par hpar_mem
  have hlen' : nodes'.length = i + 1 := by
    rw [hnodes', List.length_append, hmidlen]
    rfl
  have hipos : 0 < i := by
    obtain ⟨x, hx⟩ := List.exists_mem_of_ne_nil stack inv.stack_ne
    exact Nat.lt_of_le_of_lt (Nat.zero_le x) (inv.stack_lt x hx)
  -- node lookups in the new list
  have hget_lt : ∀ v, v < i → nodes'.get? v = nodesMid.get? v := by
    intro v hv
    rw [hnodes', List.get?_append]
    omega
  have hget_i : nodes'.get? i = some bk := by
    rw [hnodes', show i = nodesMid.length + 0 by omega,
      List.get?_append_right (by omega)]
    simp
  have hsome_of_lt : ∀ v, v < i → ∃ b, nodes.get? v = some b := by
    intro v hv
    cases hb : nodes.get? v with
    | none =>
      rw [List.get?_eq_none] at hb
      omega
    | some b => exact ⟨b, rfl⟩
  -- `parOf` preservation
  have hparOf_lt : ∀ v, v < i → parOf nodes' v = parOf nodes v := by
    intro v hv
    unfold parOf
    rw [hget_lt v hv]
    obtain ⟨b, hb⟩ := hsome_of_lt v hv
    obtain ⟨b', hb', hbp, -⟩ := hmid v b hb
    rw [hb, hb', Option.some_bind, Option.some_bind, hbp]
  have hparOf_i : parOf nodes' i = some par := by
    unfold parOf
    rw [hget_i, Option.some_bind]
    exact hbkpar
  have hpl' : ParentsLt nodes' := by
    intro v b p hb hp
    by_cases hv : v < i
    · rw [hget_lt v hv] at hb
      obtain ⟨b0, hb0⟩ := hsome_of_lt v hv
      obtain ⟨b', hb', hbp, -⟩ := hmid v b0 hb0
      rw [hb'] at hb
      have hbb : b = b' := Option.some_inj.mp hb.symm
      subst hbb
      rw [hbp] at hp
      exact inv.parents_lt v b0 p hb0 hp
    · have hvi : v = i ∨ i < v := by omega
      rcases hvi with hvi | hvi
      · subst hvi
        rw [hget_i] at hb
        have hbb : b = bk := Option.some_inj.mp hb.symm
        subst hbb
        rw [hbkpar] at hp
        have hpp : p = par := Option.some_inj.mp hp.symm
        subst hpp
        exact hpar_lt
      · rw [List.get?_eq_none.mpr (by rw [hlen']; omega)] at hb
        exact absurd hb (by simp)
  -- ancestor chains of old nodes are unchanged
  have hanc_lt : ∀ v, v < i → ancestors nodes' v = ancestors nodes v := by
    intro v hv
    exact ancestors_congr nodes nodes' inv.parents_lt v
      (fun w hw => hparOf_lt w (by omega))
  have hKsplit : K = stack.take f ++ [par] := by
    rw [hK, hf, List.take_succ, ← List.get?_eq_getElem?, hparf]
    rfl
  -- the new node's ancestors are exactly the surviving stack prefix
  have hanc_i : ancestors nodes' i = K.reverse := by
    have hanc_par : ancestors nodes' par = (stack.take f).reverse := by
      rw [ancestors_congr nodes nodes' inv.parents_lt par
        (fun w hw => hparOf_lt w (by omega))]
      exact inv.stack_anc f par hparf
    obtain ⟨m, hm⟩ : ∃ m, i = m + 1 := ⟨i - 1, by omega⟩
    have hp2 : parOf nodes' (m + 1) = some par := hm ▸ hparOf_i
    have step : ancChain nodes' (m + 1) (m + 1) = par :: ancChain nodes' m par := by
      simp [ancChain, hp2]
    have hfuel : ancChain nodes' m par = ancestors nodes' par :=
      ancChain_eq_ancestors nodes' hpl' par m (by omega)
    rw [hm]
    show ancChain nodes' (m + 1) (m + 1) = K.reverse
    rw [step, hfuel, hanc_par, hKsplit]
    simp
  have hmem_K_iff : ∀ v, (v ∈ ancestors nodes' i) ↔ v ∈ K := by
    intro v
    rw [hanc_i, List.mem_reverse]
  have hsplit : ∀ v, descCount nodes' v =
      descCount nodes v + (if v ∈ ancestors nodes' i then 1 else 0) :=
    descCount_split nodes nodes' hlen' hanc_lt
  refine ⟨⟨?_, ?_, ?_, ?_, hpl', ?_, ?_, ?_, hsn, ?_⟩, hlen'⟩
  · simp
  · obtain ⟨a, rest, hd⟩ : ∃ a rest, stack = a :: rest := by
      cases stack with
      | nil => exact absurd rfl inv.stack_ne
      | cons a rest => exact ⟨a, rest, rfl⟩
    have ha : a = 0 := by
      have hh := inv.stack_head
      rw [hd] at hh
      simpa using hh
    rw [hK, hd, ha, hf]
    rfl
  · intro x hx
    rw [hlen']
    rcases List.mem_append.mp hx with hx | hx
    · exact lt_trans (hKlt x hx) (by omega)
    · have hxi : x = i := by simpa using hx
      omega
  · rw [List.pairwise_append]
    refine ⟨hKpw, by simp, ?_⟩
    intro x hx y hy
    have hyi : y = i := by simpa using hy
    subst hyi
    exact hKlt x hx
  · -- stack_anc
    intro j q hq
    by_cases hj : j < e
    · have hjK : j < K.length := by omega
      rw [List.get?_append hjK] at hq
      have hq' : stack.get? j = some q := by
        rw [hK, List.get?_take hj] at hq
        exact hq
      have hqmem : q ∈ K := List.get?_mem hq
      have htake : (K ++ [i]).take j = stack.take j := by
        rw [List.take_append_of_le_length (by omega), hK, List.take_take,
          Nat.min_eq_left (by omega)]
      rw [htake, hanc_lt q (hKlt q hqmem)]
      exact inv.stack_anc j q hq'
    · by_cases hje : j = e
      · rw [hje] at hq
        rw [List.get?_append_right (by omega), hKlen] at hq
        simp only [Nat.sub_self, List.get?_cons_zero, Option.some.injEq] at hq
        subst hq
        have htake : (K ++ [i]).take e = K := by
          rw [List.take_append_of_le_length (by omega), hK, List.take_take,
            Nat.min_eq_left (by omega)]
        rw [hje, htake]
        exact hanc_i
      · exfalso
        have hlj : (K ++ [i]).length ≤ j := by
          rw [List.length_append, hKlen]
          simp only [List.length_cons, List.length_nil]
          omega
        rw [List.get?_eq_none.mpr hlj] at hq
        exact absurd hq (by simp)
  · -- count_inv
    intro v b' hb'
    by_cases hv : v < i
    · rw [hget_lt v hv] at hb'
      obtain ⟨b, hb⟩ := hsome_of_lt v hv
      obtain ⟨b'', hb'', hbp, hbc⟩ := hmid v b hb
      rw [hb''] at hb'
      have hbb : b' = b'' := Option.some_inj.mp hb'.symm
      subst hbb
      rw [hbc, inv.count_inv v b hb, hsplit v]
      congr 1
      by_cases hvK : v ∈ K
      · rw [if_pos ((hmem_K_iff v).mpr hvK)]
        exact List.count_eq_one_of_mem hKnd hvK
      · rw [if_neg (fun hc => hvK ((hmem_K_iff v).mp hc))]
        exact List.count_eq_zero_of_not_mem hvK
    · have hvi : v = i ∨ i < v := by omega
      rcases hvi with hvi | hvi
      · subst hvi
        rw [hget_i] at hb'
        have hbb : b' = bk := Option.some_inj.mp hb'.symm
        subst hbb
        rw [hbkcount, hsplit i]
        have hd0 : descCount nodes i = 0 := by
          unfold descCount
          rw [List.length_eq_zero, List.filter_eq_nil]
          intro j hj
          simp only [decide_eq_true_eq]
          intro hmem
          have hji : j < i := List.mem_range.mp hj
          have hlt := ancestors_lt nodes inv.parents_lt j i hmem
          omega
        have hnotin : i ∉ ancestors nodes' i := by
          rw [hmem_K_iff]
          intro hc
          exact absurd (hKlt i hc) (by omega)
        rw [hd0, if_neg hnotin]
      · rw [List.get?_eq_none.mpr (by rw [hlen']; omega)] at hb'
        exact absurd hb' (by simp)
  · -- root_anc
    intro j hj1 hj2
    rw [hlen'] at hj2
    by_cases hji : j < i
    · rw [hanc_lt j hji]
      exact inv.root_anc j hj1 hji
    · have hjeq : j = i := by omega
      subst hjeq
      rw [hmem_K_iff]
      have h0 : stack.get? 0 = some 0 := by
        rw [List.get?_zero]
        exact inv.stack_head
      have h0K : K.get? 0 = some 0 := by
        rw [hK, List.get?_take (by omega)]
        exact h0
      exact List.get?_mem h0K
  · rw [List.length_append, hKlen]
    simp only [List.length_cons, List.length_nil]
    omega

theorem intSum_nonneg : ∀ (l : List Int), (∀ x ∈ l, 0 ≤ x) → 0 ≤ l.sum := by
  intro l
  induction l with
  | nil => intro _; simp
  | cons a l ih =>
    intro h
    rw [List.sum_cons]
    have ha := h a (by simp)
    have hl := ih (fun x hx => h x (List.mem_cons_of_mem _ hx))
    omega

theorem pyTrunc_nonneg {α : Type} (l : List α) (k : Int) (hk : 0 ≤ k) :
    pyTrunc l k = l.take k.toNat := by
  simp [pyTrunc, hk]

/-- The combined effect of one iteration's mutations on the existing
nodes: one parent/count-preserving update, the count increments, then
another parent/count-preserving update. -/
theorem mid_spec (nodes : List BNode) (a c : Nat) (g1 g2 : BNode → BNode)
    (hg1 : ∀ x, (g1 x).parent = x.parent ∧ (g1 x).count = x.count)
    (hg2 : ∀ x, (g2 x).parent = x.parent ∧ (g2 x).count = x.count)
    (idxs : List Nat) :
    (updNode (incCounts (updNode nodes a g1) idxs) c g2).length = nodes.length ∧
    (∀ v bb, nodes.get? v = some bb →
      ∃ b', (updNode (incCounts (updNode nodes a g1) idxs) c g2).get? v = some b' ∧
        b'.parent = bb.parent ∧ b'.count = bb.count + idxs.count v) := by
  constructor
  · rw [updNode_length, incCounts_length, updNode_length]
  · intro v bb hbb
    have hX : ∃ x, (updNode nodes a g1).get? v = some x ∧
        x.parent = bb.parent ∧ x.count = bb.count := by
      rw [updNode_get?, hbb]
      by_cases hva : v = a
      · rw [if_pos hva]
        exact ⟨g1 bb, rfl, (hg1 bb).1, (hg1 bb).2⟩
      · rw [if_neg hva]
        exact ⟨bb, rfl, rfl, rfl⟩
    obtain ⟨x, hx, hxp, hxc⟩ := hX
    have hY : (incCounts (updNode nodes a g1) idxs).get? v =
        some { x with count := x.count + idxs.count v } := by
      rw [incCounts_get?, hx]
      rfl
    rw [updNode_get?, hY]
    by_cases hvc : v = c
    · rw [if_pos hvc]
      refine ⟨g2 { x with count := x.count + idxs.count v }, rfl, ?_, ?_⟩
      · rw [(hg2 _).1]
        exact hxp
      · rw [(hg2 _).2]
        show x.count + idxs.count v = bb.count + idxs.count v
        omega
    · rw [if_neg hvc]
      refine ⟨{ x with count := x.count + idxs.count v }, rfl, hxp, ?_⟩
      show x.count + idxs.count v = bb.count + idxs.count v
      omega

theorem bstep_inv (nodes : List BNode) (stack : List Nat) (shifts : List Int)
    (inv : BInv nodes stack shifts) (lvl : Int) (lab dst : Nat)
    (out : List BNode × List Nat × List Int)
    (h : bstep nodes stack shifts nodes.length lvl lab dst = some out) :
    BInv out.1 out.2.1 out.2.2 ∧ out.1.length = nodes.length + 1 := by
  have hLpos : 0 < stack.length := by
    cases hs : stack with
    | nil => exact absurd hs inv.stack_ne
    | cons a rest => simp
  simp only [bstep, Option.bind_eq_some] at h
  obtain ⟨shifts', hsh, h⟩ := h
  -- facts about the computed shift stack and effective level
  have hfacts : (∀ x ∈ shifts', 0 ≤ x) ∧ 0 ≤ lvl - shifts'.sum ∧
      (shifts'.length : Int) ≤ lvl - shifts'.sum := by
    by_cases hpush : lvl > (stack.length : Int) - 1 + shifts.sum
    · rw [if_pos hpush] at hsh
      have hsh2 : (lvl - ((stack.length : Int) - 1 + shifts.sum) - 1) :: shifts =
          shifts' := Option.some_inj.mp hsh
      have hlen := inv.shifts_len
      refine ⟨?_, ?_, ?_⟩
      · intro x hx
        rw [← hsh2] at hx
        rcases List.mem_cons.mp hx with hx | hx
        · subst hx; omega
        · exact inv.shifts_nonneg x hx
      · rw [← hsh2, List.sum_cons]
        omega
      · rw [← hsh2, List.sum_cons, List.length_cons]
        push_cast
        omega
    · rw [if_neg hpush] at hsh
      obtain ⟨pops, hdec, hsum⟩ := popLoop_spec shifts _ 0 shifts' hsh
      have hsum_split : shifts.sum = pops.sum + shifts'.sum := by
        rw [hdec, List.sum_append]
      have hlen_split : shifts.length = pops.length + shifts'.length := by
        rw [hdec, List.length_append]
      have hnn : ∀ x ∈ shifts', 0 ≤ x := by
        intro x hx
        exact inv.shifts_nonneg x (by rw [hdec]; exact List.mem_append_right _ hx)
      have hnn2 : 0 ≤ shifts'.sum := intSum_nonneg shifts' hnn
      have hlen := inv.shifts_len
      refine ⟨hnn, ?_, ?_⟩
      · omega
      · omega
  obtain ⟨hsn', hlv0, hslb⟩ := hfacts
  obtain ⟨par, hpar, h⟩ := h
  by_cases hbr : lvl - shifts'.sum > (stack.length : Int) - 1
  · -- first-child branch: the effective level equals the stack length
    rw [if_pos hbr] at h
    have hlv1 : (1 : Int) ≤ lvl - shifts'.sum := by omega
    have hidx := pyIdx_some_nonneg (by omega : (0 : Int) ≤ lvl - shifts'.sum - 1) hpar
    have hlvL : lvl - shifts'.sum = (stack.length : Int) := by
      have h1 : (lvl - shifts'.sum - 1).toNat < stack.length := hidx.1
      omega
    have hnotgt : ¬(lvl - shifts'.sum > (stack.length : Int)) := by omega
    rw [if_neg hnotgt, Option.bind_eq_some] at h
    obtain ⟨lastT, hlast, h⟩ := h
    have hlastT : lastT = par := by
      rw [hpar] at hlast
      exact (Option.some_inj.mp hlast).symm
    rw [hlastT] at h
    rw [show (lvl - shifts'.sum).toNat = stack.length by omega,
      List.take_length] at h
    have hout := (Option.some_inj.mp h).symm
    have hparget : stack.get? (stack.length - 1) = some par := by
      have h2 := hidx.2
      rwa [show (lvl - shifts'.sum - 1).toNat = stack.length - 1 by omega] at h2
    obtain ⟨hmlen, hmid⟩ := mid_spec nodes par par
      (fun b => { b with first := some nodes.length })
      (fun b => { b with last := some nodes.length })
      (fun x => ⟨rfl, rfl⟩) (fun x => ⟨rfl, rfl⟩) stack
    have hcore := bstep_core nodes stack shifts shifts' inv stack.length
      hLpos (le_refl _) par hparget
      { count := 0, first := none, last := none, prev := none, next := none,
        parent := some par, label := lab, dest := dst }
      rfl rfl _ hmlen
      (by
        intro v b hb
        obtain ⟨b', hb', hbp, hbc⟩ := hmid v b hb
        exact ⟨b', hb', hbp, by rwa [List.take_length]⟩)
      hsn' (by omega)
    rw [List.take_length] at hcore
    rw [hout]
    exact hcore
  · -- sibling branch
    rw [if_neg hbr, Option.bind_eq_some] at h
    obtain ⟨sib, hsib, h⟩ := h
    rw [pyTrunc_nonneg stack _ hlv0] at h
    have hbr' : lvl - shifts'.sum ≤ (stack.length : Int) - 1 := by omega
    have hlen1 : ((stack.take (lvl - shifts'.sum).toNat).length : Int) =
        lvl - shifts'.sum := by
      rw [List.length_take]
      omega
    have hngt : ¬(lvl - shifts'.sum >
        ((stack.take (lvl - shifts'.sum).toNat).length : Int)) := by
      rw [hlen1]
      omega
    rw [if_neg hngt, Option.bind_eq_some] at h
    obtain ⟨lastT, hlast, h⟩ := h
    have hlv1 : (1 : Int) ≤ lvl - shifts'.sum := by
      by_contra h0
      have hlv00 : lvl - shifts'.sum = 0 := by omega
      rw [hlv00] at hlast
      simp [pyIdx] at hlast
    have hparget : stack.get? ((lvl - shifts'.sum).toNat - 1) = some par := by
      have hidx := pyIdx_some_nonneg
        (by omega : (0 : Int) ≤ lvl - shifts'.sum - 1) hpar
      have h2 := hidx.2
      rwa [show (lvl - shifts'.sum - 1).toNat = (lvl - shifts'.sum).toNat - 1
        by omega] at h2
    have hlast_eq : lastT = par := by
      have h2 := pyIdx_some_nonneg
        (by omega : (0 : Int) ≤ lvl - shifts'.sum - 1) hlast
      have h3 := h2.2
      rw [show (lvl - shifts'.sum - 1).toNat = (lvl - shifts'.sum).toNat - 1
        by omega] at h3
      rw [List.get?_take (by omega)] at h3
      rw [hparget] at h3
      exact (Option.some_inj.mp h3).symm
    rw [hlast_eq] at h
    rw [show (stack.take (lvl - shifts'.sum).toNat).take
        (lvl - shifts'.sum).toNat = stack.take (lvl - shifts'.sum).toNat from
      by rw [List.take_take, Nat.min_self]] at h
    have hout := (Option.some_inj.mp h).symm
    obtain ⟨hmlen, hmid⟩ := mid_spec nodes sib par
      (fun b => { b with next := some nodes.length })
      (fun b => { b with last := some nodes.length })
      (fun x => ⟨rfl, rfl⟩) (fun x => ⟨rfl, rfl⟩)
      (stack.take (lvl - shifts'.sum).toNat)
    have hcore := bstep_core nodes stack shifts shifts' inv
      (lvl - shifts'.sum).toNat (by omega) (by omega) par hparget
      { count := 0, first := none, last := none, prev := some sib, next := none,
        parent := some par, label := lab, dest := dst }
      rfl rfl _ hmlen hmid hsn' (by omega)
    rw [hout]
    exact hcore

theorem binv_init : BInv [{}] [0] [] := by
  refine ⟨by simp, rfl, ?_, by simp, ?_, ?_, ?_, ?_, by simp, by simp⟩
  · intro x hx
    have hx0 : x = 0 := by simpa using hx
    subst hx0
    simp
  · intro v b p hb hp
    cases v with
    | zero =>
      have hb0 : ({} : BNode) = b := by simpa using hb
      subst hb0
      exact absurd hp (by simp)
    | succ v => simp at hb
  · intro j q hq
    cases j with
    | zero =>
      have hq0 : (0 : Nat) = q := by simpa using hq
      subst hq0
      rfl
    | succ j => simp at hq
  · intro v b hb
    cases v with
    | zero =>
      have hb0 : ({} : BNode) = b := by simpa using hb
      subst hb0
      decide
    | succ v => simp at hb
  · intro j hj1 hj2
    simp at hj2
    omega

theorem bmRun_inv : ∀ (raw : List (Int × Nat × Nat)) (nodes : List BNode)
    (stack : List Nat) (shifts : List Int), BInv nodes stack shifts →
    ∀ out, bmRun nodes stack shifts nodes.length raw = some out →
    (∃ stackF shiftsF, BInv out stackF shiftsF) ∧
      out.length = nodes.length + raw.length := by
  intro raw
  induction raw with
  | nil =>
    intro nodes stack shifts inv out h
    have hno : nodes = out := by simpa [bmRun] using h
    subst hno
    exact ⟨⟨stack, shifts, inv⟩, by simp⟩
  | cons t raw ih =>
    intro nodes stack shifts inv out h
    obtain ⟨lvl, lab, dst⟩ := t
    simp only [bmRun, Option.bind_eq_some] at h
    obtain ⟨x, hstep, hrest⟩ := h
    obtain ⟨n', s', sh'⟩ := x
    obtain ⟨inv', hlen'⟩ := bstep_inv nodes stack shifts inv lvl lab dst _ hstep
    have hrest' : bmRun n' s' sh' n'.length raw = some out := by
      rw [hlen']
      exact hrest
    obtain ⟨hinvF, hlenF⟩ := ih n' s' sh' inv' out hrest'
    refine ⟨hinvF, ?_⟩
    rw [hlenF, hlen']
    simp only [List.length_cons]
    omega

theorem filter_range_length (m : Nat) (p : Nat → Bool) (h0 : p 0 = false)
    (h1 : ∀ j, 1 ≤ j → j < m → p j = true) :
    ((List.range m).filter p).length = m - 1 := by
  induction m with
  | zero => simp
  | succ m ih =>
    rw [List.range_succ, List.filter_append, List.length_append]
    by_cases hm : m = 0
    · subst hm
      simp [h0]
    · rw [ih (fun j hj1 hjm => h1 j hj1 (by omega))]
      rw [List.filter_cons, if_pos (by
        rw [h1 m (by omega) (by omega)])]
      simp
      omega

/-- C2 (amended): on every input on which `process_bookmarks` succeeds,
it returns the synthetic root and a node list of the same length as the
input, in which every node's `Count` equals its number of strict
descendants in the constructed tree and the root's `Count` equals the
total number of bookmark nodes. -/
theorem C2_count_invariant (raw : List (Int × Nat × Nat)) (root : BNode)
    (lst : List BNode) (h : process_bookmarks raw = some (root, lst)) :
    lst.length = raw.length ∧ root.count = raw.length ∧
    ∀ v b, (root :: lst).get? v = some b →
      b.count = descCount (root :: lst) v := by
  unfold process_bookmarks at h
  rw [Option.bind_eq_some] at h
  obtain ⟨nodesF, hrun, hres⟩ := h
  cases nodesF with
  | nil => simp at hres
  | cons root' lst' =>
    obtain ⟨h1, h2⟩ : root' = root ∧ lst' = lst := by simpa using hres
    subst h1
    subst h2
    obtain ⟨⟨stackF, shiftsF, invF⟩, hlenF⟩ :=
      bmRun_inv raw [{}] [0] [] binv_init (root' :: lst') hrun
    have hlst : lst'.length = raw.length := by
      simp at hlenF
      omega
    refine ⟨hlst, ?_, fun v b hb => invF.count_inv v b hb⟩
    have hc := invF.count_inv 0 root' rfl
    rw [hc]
    unfold descCount
    rw [filter_range_length ((root' :: lst').length)
      (fun j => decide (0 ∈ ancestors (root' :: lst') j)) rfl ?_]
    · simp [hlst]
    · intro j hj1 hj2
      simp only [decide_eq_true_eq]
      exact invF.root_anc j hj1 (by simpa using hj2)

/-- Nodes of the spec's sibling-linkage example, depths `[1, 2, 2, 1]`. -/
def rootW : BNode := ⟨4, some 1, some 4, none, none, none, 0, 0⟩

def lstW : List BNode :=
  [⟨2, some 2, some 3, none, some 4, some 0, 0, 0⟩,
   ⟨0, none, none, none, some 3, some 1, 0, 0⟩,
   ⟨0, none, none, some 2, none, some 1, 0, 0⟩,
   ⟨0, none, none, some 1, none, some 0, 0, 0⟩]

theorem C2_witness : rootW.count = 4 ∧ lstW.length = 4 := by
  have hp : process_bookmarks [(1, 0, 0), (2, 0, 0), (2, 0, 0), (1, 0, 0)] =
      some (rootW, lstW) := by decide
  have hmain := C2_count_invariant _ rootW lstW hp
  exact ⟨hmain.2.1, hmain.1⟩

end WeasyPdf
